import Mathlib

/-!
Verification of the anonymizing data-export pipeline of `export_system.py`
(`randomize`, `check_keys`, `export`).

Python strings are modelled as `List Char` (`Str`), JSON-like documents as
the inductive type `JVal`, the global state (the `RANDOMIZE` flag, the
`RANDOMDATA` substitution table, and the random generator) as `RState`.
`random.choices` is modelled by an explicit infinite stream of indices into
the chosen alphabet, so every theorem is quantified over all possible random
outcomes.  Fallible Python operations (`TypeError` on `len` of an `int`,
unhashable dictionary keys, `AttributeError` on missing methods, `KeyError`)
are modelled with `Except String`.
-/

set_option maxHeartbeats 1000000

/-- Python strings, as lists of characters. -/
abbrev Str := List Char

/-- Shorthand turning a Lean string literal into a `Str`. -/
def lc (s : String) : Str := s.data

/-- JSON-compatible Python values: `None`, `bool`, `int`, `str`, `list`, `dict`
(dictionary keys coming from parsed JSON are always strings). -/
inductive JVal where
  | jnull : JVal
  | jbool (b : Bool) : JVal
  | jint (n : Int) : JVal
  | jstr (s : Str) : JVal
  | jarr (xs : List JVal) : JVal
  | jobj (fields : List (Str × JVal)) : JVal
deriving Repr

namespace JVal

mutual
/-- Structural (Boolean) equality on `JVal`. -/
def beq : JVal → JVal → Bool
  | .jnull, .jnull => true
  | .jbool a, .jbool b => a = b
  | .jint a, .jint b => a = b
  | .jstr a, .jstr b => a = b
  | .jarr a, .jarr b => beqList a b
  | .jobj a, .jobj b => beqFields a b
  | _, _ => false

def beqList : List JVal → List JVal → Bool
  | [], [] => true
  | x :: xs, y :: ys => beq x y && beqList xs ys
  | _, _ => false

def beqFields : List (Str × JVal) → List (Str × JVal) → Bool
  | [], [] => true
  | (k, v) :: xs, (k', v') :: ys => k = k' && beq v v' && beqFields xs ys
  | _, _ => false
end

end JVal

mutual
theorem JVal.beq_iff : ∀ a b : JVal, JVal.beq a b = true ↔ a = b
  | .jnull, .jnull => by simp [JVal.beq]
  | .jnull, .jbool _ | .jnull, .jint _ | .jnull, .jstr _ | .jnull, .jarr _
  | .jnull, .jobj _ => by simp [JVal.beq]
  | .jbool _, .jnull | .jbool _, .jint _ | .jbool _, .jstr _ | .jbool _, .jarr _
  | .jbool _, .jobj _ => by simp [JVal.beq]
  | .jint _, .jnull | .jint _, .jbool _ | .jint _, .jstr _ | .jint _, .jarr _
  | .jint _, .jobj _ => by simp [JVal.beq]
  | .jstr _, .jnull | .jstr _, .jbool _ | .jstr _, .jint _ | .jstr _, .jarr _
  | .jstr _, .jobj _ => by simp [JVal.beq]
  | .jarr _, .jnull | .jarr _, .jbool _ | .jarr _, .jint _ | .jarr _, .jstr _
  | .jarr _, .jobj _ => by simp [JVal.beq]
  | .jobj _, .jnull | .jobj _, .jbool _ | .jobj _, .jint _ | .jobj _, .jstr _
  | .jobj _, .jarr _ => by simp [JVal.beq]
  | .jbool a, .jbool b => by simp [JVal.beq]
  | .jint a, .jint b => by simp [JVal.beq]
  | .jstr a, .jstr b => by simp [JVal.beq]
  | .jarr a, .jarr b => by
      simp [JVal.beq, JVal.beqList_iff a b]
  | .jobj a, .jobj b => by
      simp [JVal.beq, JVal.beqFields_iff a b]

theorem JVal.beqList_iff : ∀ a b : List JVal, JVal.beqList a b = true ↔ a = b
  | [], [] => by simp [JVal.beqList]
  | [], _ :: _ => by simp [JVal.beqList]
  | _ :: _, [] => by simp [JVal.beqList]
  | x :: xs, y :: ys => by
      simp [JVal.beqList, JVal.beq_iff x y, JVal.beqList_iff xs ys]

theorem JVal.beqFields_iff :
    ∀ a b : List (Str × JVal), JVal.beqFields a b = true ↔ a = b
  | [], [] => by simp [JVal.beqFields]
  | [], _ :: _ => by simp [JVal.beqFields]
  | _ :: _, [] => by simp [JVal.beqFields]
  | (k, v) :: xs, (k', v') :: ys => by
      simp only [JVal.beqFields, JVal.beq_iff v v', JVal.beqFields_iff xs ys,
        Bool.and_eq_true, decide_eq_true_eq, List.cons.injEq, Prod.mk.injEq]
end


instance : DecidableEq JVal := fun a b => decidable_of_iff _ (JVal.beq_iff a b)

/-- Python truthiness of a `JVal` (`bool(v)`). -/
def truthy : JVal → Bool
  | .jnull => false
  | .jbool b => b
  | .jint n => n ≠ 0
  | .jstr s => s ≠ []
  | .jarr xs => xs ≠ []
  | .jobj fs => fs ≠ []

/-- Whether a `JVal` is hashable in Python (usable as a dictionary key). -/
def hashable : JVal → Bool
  | .jarr _ => false
  | .jobj _ => false
  | _ => true

/-- Decimal representation of a natural number, digit characters via
`Nat.digits` (most significant first), as Python prints it. -/
def natRepr (n : Nat) : Str :=
  if n = 0 then ['0'] else (Nat.digits 10 n).reverse.map Nat.digitChar

/-- Decimal representation of an integer, as Python's `str(int)`. -/
def intRepr (i : Int) : Str :=
  if i < 0 then '-' :: natRepr i.natAbs else natRepr i.toNat

/-- Escape of one character inside a Python `repr` of a string
(quote character given as argument). -/
def pyReprEsc (q : Char) (c : Char) : Str :=
  if c = '\\' then ['\\', '\\']
  else if c = q then ['\\', q]
  else if c = '\n' then ['\\', 'n']
  else if c = '\r' then ['\\', 'r']
  else if c = '\t' then ['\\', 't']
  else if c.val < 32 then
    ['\\', 'x', Nat.digitChar (c.toNat / 16), Nat.digitChar (c.toNat % 16)]
  else [c]

/-- Python `repr` of a string: single-quoted unless the string contains a
single quote but no double quote. -/
def pyReprStr (s : Str) : Str :=
  let q : Char := if '\'' ∈ s ∧ ¬ '"' ∈ s then '"' else '\''
  q :: s.flatMap (pyReprEsc q) ++ [q]

mutual
/-- Python `repr` of a JSON-like value (used by `str()` on containers). -/
def pyRepr : JVal → Str
  | .jnull => lc "None"
  | .jbool true => lc "True"
  | .jbool false => lc "False"
  | .jint i => intRepr i
  | .jstr s => pyReprStr s
  | .jarr xs => '[' :: pyReprList xs ++ [']']
  | .jobj fs => '{' :: pyReprFields fs ++ ['}']

def pyReprList : List JVal → Str
  | [] => []
  | [x] => pyRepr x
  | x :: xs => pyRepr x ++ ',' :: ' ' :: pyReprList xs

def pyReprFields : List (Str × JVal) → Str
  | [] => []
  | [(k, v)] => pyReprStr k ++ ':' :: ' ' :: pyRepr v
  | (k, v) :: fs => pyReprStr k ++ ':' :: ' ' :: pyRepr v ++ ',' :: ' ' :: pyReprFields fs
end

/-- Python `str()` of a JSON-like value. -/
def pyStr : JVal → Str
  | .jnull => lc "None"
  | .jbool true => lc "True"
  | .jbool false => lc "False"
  | .jint i => intRepr i
  | .jstr s => s
  | .jarr xs => pyRepr (.jarr xs)
  | .jobj fs => pyRepr (.jobj fs)

/-- Python `p in s` on strings: substring containment. -/
def strIn : Str → Str → Bool
  | p, [] => p.isEmpty
  | p, c :: rest => p.isPrefixOf (c :: rest) || strIn p rest

/-- `dict.get(k, default)` on the substitution table (insertion-ordered
association list mirroring a Python `dict`). -/
def dictGet : List (JVal × Str) → JVal → Option Str
  | [], _ => none
  | (k₀, v₀) :: rest, k => if k₀ = k then some v₀ else dictGet rest k

/-- `dict.update({k: v})`: replace the value in place if the key exists
(keeping its position), otherwise append the new entry. -/
def dictUpdate : List (JVal × Str) → JVal → Str → List (JVal × Str)
  | [], k, v => [(k, v)]
  | (k₀, v₀) :: rest, k, v =>
    if k₀ = k then (k, v) :: rest else (k₀, v₀) :: dictUpdate rest k v

/-- `string.ascii_uppercase + string.digits`. -/
def upperDigits : Str := lc "ABCDEFGHIJKLMNOPQRSTUVWXYZ0123456789"

/-- `string.hexdigits.upper()`. -/
def hexUpper : Str := lc "0123456789ABCDEFABCDEF"

/-- `string.hexdigits.lower()`. -/
def hexLower : Str := lc "0123456789abcdefabcdef"

/-- `string.ascii_letters`. -/
def asciiLetters : Str :=
  lc "abcdefghijklmnopqrstuvwxyzABCDEFGHIJKLMNOPQRSTUVWXYZ"

/-- Global state of one export run: the `RANDOMIZE` flag, the `RANDOMDATA`
substitution table, and the random source (an infinite stream of indices
consumed from position `pos`). -/
structure RState where
  RANDOMIZE : Bool
  RANDOMDATA : List (JVal × Str)
  rng : Nat → Nat
  pos : Nat

/-- `"".join(random.choices(alphabet, k=k))`: draw `k` characters from the
alphabet, consuming `k` positions of the random stream. -/
def choices (alphabet : Str) (k : Nat) (st : RState) : Str × RState :=
  ((List.range k).map fun i => alphabet.getD (st.rng (st.pos + i) % alphabet.length) 'A',
   { st with pos := st.pos + k })

/-- Python `str.split(sep)` for a one-character separator. -/
def pySplit (sep : Char) : Str → List Str
  | [] => [[]]
  | c :: rest =>
    if c = sep then [] :: pySplit sep rest
    else
      match pySplit sep rest with
      | s :: ss => (c :: s) :: ss
      | [] => [[c]]

/-- Helper for `str.replace` with a non-empty pattern: left-to-right,
non-overlapping replacement. -/
def pyReplaceAux (old new : Str) : Str → Str
  | [] => []
  | c :: rest =>
    if old ≠ [] ∧ old.isPrefixOf (c :: rest) then
      new ++ pyReplaceAux old new (rest.drop (old.length - 1))
    else c :: pyReplaceAux old new rest
termination_by s => s.length
decreasing_by
  · simp only [List.length_cons]
    have := List.length_drop (old.length - 1) rest
    omega
  · simp [List.length_cons]

/-- Python `str.replace(old, new)` (with Python's semantics for an empty
pattern, which interleaves `new` around every character). -/
def pyReplace (s old new : Str) : Str :=
  if old = [] then new ++ s.flatMap (fun c => c :: new)
  else pyReplaceAux old new s

/-- Consecutive pairs of a string: `zip(s[::2], s[1::2])` as used by
`randomize` to regroup Bluetooth addresses (a trailing odd character is
dropped, exactly like `zip` truncation). -/
def pairsOf : Str → List Str
  | a :: b :: rest => [a, b] :: pairsOf rest
  | _ => []

/-- `sep.join(xs)` for a one-character separator. -/
def joinSep (sep : Char) : List Str → Str
  | [] => []
  | [x] => x
  | x :: y :: xs => x ++ sep :: joinSep sep (y :: xs)

/-- `":".join(a + b for a, b in zip(s[::2], s[1::2]))`. -/
def regroup (s : Str) : Str := joinSep ':' (pairsOf s)

/-- The loop of the `_id` branch of `randomize`: randomize each `-`-separated
segment to its own length with lowercase hex digits, rejoining with `-`;
note that while the accumulator is still empty (falsy) no `-` is inserted. -/
def idLoop : List Str → Str → RState → Str × RState
  | [], acc, st => (acc, st)
  | part :: rest, acc, st =>
    if acc ≠ [] then
      idLoop rest (acc ++ '-' :: (choices hexLower part.length st).1)
        (choices hexLower part.length st).2
    else idLoop rest (choices hexLower part.length st).1 (choices hexLower part.length st).2

/-- The loop of the blob branch of `randomize`: replace every table original
whose `len` is not 32 by its substitute, in table order.  A non-string table
key raises `TypeError` (from `len`), and a non-string accumulator raises
`AttributeError` (from `.replace`), as in Python. -/
def blobFold : List (JVal × Str) → JVal → Except String JVal
  | [], acc => .ok acc
  | (o, sub) :: rest, acc =>
    match o with
    | .jstr os =>
      if os.length = 32 then blobFold rest acc
      else
        match acc with
        | .jstr s => blobFold rest (.jstr (pyReplace s os sub))
        | _ => .error "AttributeError"
    | _ => .error "TypeError"

/-- The serial-number branch of `randomize` (lines 54-57): same-length
uppercase alphanumeric string; `len` of a non-string raises `TypeError`. -/
def snBranch (val : JVal) (st : RState) : Except String (JVal × RState) :=
  match val with
  | .jstr s =>
    .ok (.jstr (if (choices upperDigits s.length st).1 = [] then pyStr val
                else (choices upperDigits s.length st).1),
         RState.mk st.RANDOMIZE
           (dictUpdate st.RANDOMDATA val (choices upperDigits s.length st).1)
           st.rng (choices upperDigits s.length st).2.pos)
  | _ => .error "TypeError"

/-- `val.replace(":", "")` of the Bluetooth branch. -/
def btTemp (s : Str) : Str := s.filter (fun c => c ≠ ':')

/-- The reused-or-generated colon-free hex string of the Bluetooth branch:
the table entry for the colon-free form if it is truthy, otherwise a fresh
same-length hexadecimal draw. -/
def btR (s : Str) (st : RState) : Str × RState :=
  if (dictGet st.RANDOMDATA (.jstr (btTemp s))).getD [] = [] then
    choices hexUpper (btTemp s).length st
  else ((dictGet st.RANDOMDATA (.jstr (btTemp s))).getD [], st)

/-- The Bluetooth branch of `randomize` (lines 58-72): strip colons, reuse or
generate a hex string of the stripped length, and when the original contained
colons also cache the colon-free form and regroup the result in pairs. -/
def btBranch (val : JVal) (st : RState) : Except String (JVal × RState) :=
  match val with
  | .jstr s =>
    if ':' ∈ s then
      .ok (.jstr (if regroup (btR s st).1 = [] then pyStr val else regroup (btR s st).1),
           RState.mk st.RANDOMIZE
             (dictUpdate (dictUpdate st.RANDOMDATA (.jstr (btTemp s)) (btR s st).1)
               val (regroup (btR s st).1))
             st.rng (btR s st).2.pos)
    else
      .ok (.jstr (if (btR s st).1 = [] then pyStr val else (btR s st).1),
           RState.mk st.RANDOMIZE (dictUpdate st.RANDOMDATA val (btR s st).1)
             st.rng (btR s st).2.pos)
  | _ => .error "AttributeError"

/-- The ID branch of `randomize` (lines 73-87). -/
def idBranch (val : JVal) (st : RState) : Except String (JVal × RState) :=
  match val with
  | .jstr s =>
    .ok (.jstr (if (idLoop (pySplit '-' s) [] st).1 = [] then pyStr val
                else (idLoop (pySplit '-' s) [] st).1),
         RState.mk st.RANDOMIZE
           (dictUpdate st.RANDOMDATA val (idLoop (pySplit '-' s) [] st).1)
           st.rng (idLoop (pySplit '-' s) [] st).2.pos)
  | _ => .error "AttributeError"

/-- The wifi-name branch of `randomize` (lines 88-90): the next sequential
synthetic name, one above the count of table values containing
`"wifi-network-"`. -/
def wifiBranch (val : JVal) (st : RState) : Except String (JVal × RState) :=
  let idx := st.RANDOMDATA.countP (fun e => strIn (lc "wifi-network-") e.2)
  let r := lc "wifi-network-" ++ natRepr (idx + 1)
  .ok (.jstr r, { st with RANDOMDATA := dictUpdate st.RANDOMDATA val r })

/-- The blob branch of `randomize` (lines 91-100): textual replacement of all
table originals of length ≠ 32, returned without registering the result. -/
def blobBranch (val : JVal) (st : RState) : Except String (JVal × RState) :=
  match blobFold st.RANDOMDATA val with
  | .ok r => .ok (r, st)
  | .error e => .error e

/-- The default branch of `randomize` (lines 101-103): same-length random
alphabetic string. -/
def defBranch (val : JVal) (st : RState) : Except String (JVal × RState) :=
  match val with
  | .jstr s =>
    .ok (.jstr (if (choices asciiLetters s.length st).1 = [] then pyStr val
                else (choices asciiLetters s.length st).1),
         RState.mk st.RANDOMIZE
           (dictUpdate st.RANDOMDATA val (choices asciiLetters s.length st).1)
           st.rng (choices asciiLetters s.length st).2.pos)
  | _ => .error "TypeError"

/-- The `if`/`elif` chain of `randomize` selecting the generation strategy
from the key hint (lines 54-103). -/
def genValue (val : JVal) (key : Str) (st : RState) : Except String (JVal × RState) :=
  if strIn (lc "_sn") key ∨ key = lc "sn" then snBranch val st
  else if strIn (lc "bt_ble_") key then btBranch val st
  else if strIn (lc "_id") key then idBranch val st
  else if strIn (lc "wifi_name") key then wifiBranch val st
  else if key = lc "home_load_data" ∨ key = lc "param_data" then blobBranch val st
  else defBranch val st

/-- `randomize(val, key)` from `export_system.py`, lines 44-105.  Returns the
substitute (a `JVal` because the blob branch returns the original object when
it is not a string and no table entry applies) together with the updated
state; raises (`Except.error`) exactly where Python would raise (`len` of an
`int`, `.replace`/`.split` on a non-string, unhashable table key). -/
def randomize (val : JVal) (key : Str) (st : RState) : Except String (JVal × RState) :=
  if st.RANDOMIZE = false then .ok (.jstr (pyStr val), st)
  else if hashable val = false then .error "TypeError"
  else if (dictGet st.RANDOMDATA val).getD [] = [] ∧ truthy val = true ∧
      key ≠ lc "device_name" then
    genValue val key st
  else
    .ok (.jstr (if (dictGet st.RANDOMDATA val).getD [] = [] then pyStr val
                else (dictGet st.RANDOMDATA val).getD []), st)

/-- The sensitive-key test of `check_keys` (lines 117-130): any of the listed
substrings occurs in the key, or the key equals `"sn"`. -/
def sensitive (k : Str) : Bool :=
  strIn (lc "_sn") k || strIn (lc "site_id") k || strIn (lc "trace_id") k ||
  strIn (lc "bt_ble_") k || strIn (lc "wifi_name") k ||
  strIn (lc "home_load_data") k || strIn (lc "param_data") k ||
  strIn (lc "device_name") k || k = lc "sn"

instance : Inhabited JVal := ⟨.jnull⟩

/-- Whether a value is a Python `dict`. -/
def isObj : JVal → Bool
  | .jobj _ => true
  | _ => false

/-- Whether a value is a Python `list`. -/
def isArr : JVal → Bool
  | .jarr _ => true
  | _ => false

mutual
/-- `check_keys(data)` from `export_system.py`, lines 108-132: recursive
traversal randomizing values of sensitive keys.  `int`, `bool` and `str`
inputs are returned unchanged; `None` and `list` inputs raise
`AttributeError` (no `.copy().items()`); `dict` inputs are traversed. -/
def checkKeys : JVal → RState → Except String (JVal × RState)
  | .jnull, _ => .error "AttributeError"
  | .jbool b, st => .ok (.jbool b, st)
  | .jint n, st => .ok (.jint n, st)
  | .jstr s, st => .ok (.jstr s, st)
  | .jarr _, _ => .error "AttributeError"
  | .jobj fs, st =>
    match checkFields fs st with
    | .ok (fs', st') => .ok (.jobj fs', st')
    | .error e => .error e

/-- The body of the `for k, v in data.copy().items()` loop of `check_keys`:
recurse into `dict` values, map over `list` values, then randomize the value
if the key is sensitive.  (Python rebinds `v` and then tests
`isinstance(v, list)`; since `check_keys` maps a dict to a dict, scrutinizing
the original value is equivalent.) -/
def checkFields : List (Str × JVal) → RState → Except String (List (Str × JVal) × RState)
  | [], st => .ok ([], st)
  | (k, v) :: rest, st =>
    match checkSub v st with
    | .error e => .error e
    | .ok (v₂, st₂) =>
      match (if sensitive k then randomize v₂ k st₂ else .ok (v₂, st₂)) with
      | .error e => .error e
      | .ok (v₃, st₃) =>
        match checkFields rest st₃ with
        | .ok (rest', st₄) => .ok ((k, v₃) :: rest', st₄)
        | .error e => .error e

/-- The recursion into one field value: `if isinstance(v, dict): v = check_keys(v)`
(inlined, since `check_keys` of a dict just runs the field loop) and
`if isinstance(v, list): v = [check_keys(i) for i in v]`. -/
def checkSub : JVal → RState → Except String (JVal × RState)
  | .jobj fs, st =>
    match checkFields fs st with
    | .ok (fs', st') => .ok (.jobj fs', st')
    | .error e => .error e
  | .jarr xs, st =>
    match checkList xs st with
    | .ok (xs', st') => .ok (.jarr xs', st')
    | .error e => .error e
  | v, st => .ok (v, st)

/-- `[check_keys(i) for i in v]`. -/
def checkList : List JVal → RState → Except String (List JVal × RState)
  | [], st => .ok ([], st)
  | x :: xs, st =>
    match checkKeys x st with
    | .error e => .error e
    | .ok (x', st₁) =>
      match checkList xs st₁ with
      | .ok (xs', st₂) => .ok (x' :: xs', st₂)
      | .error e => .error e
end

/-- JSON string escaping as `json.dump` does with its default
`ensure_ascii=True`: escape backslash, quote, the common control characters,
other control characters and all non-ASCII characters as `\uXXXX`
(non-BMP code points become surrogate pairs). -/
def jsonHex4 (n : Nat) : Str :=
  [Nat.digitChar (n / 4096 % 16), Nat.digitChar (n / 256 % 16),
   Nat.digitChar (n / 16 % 16), Nat.digitChar (n % 16)]

def jsonEscChar (c : Char) : Str :=
  if c = '"' then ['\\', '"']
  else if c = '\\' then ['\\', '\\']
  else if c = '\n' then ['\\', 'n']
  else if c = '\t' then ['\\', 't']
  else if c = '\r' then ['\\', 'r']
  else if c.val = 8 then ['\\', 'b']
  else if c.val = 12 then ['\\', 'f']
  else if c.toNat < 32 ∨ c.toNat > 126 then
    if c.toNat < 65536 then '\\' :: 'u' :: jsonHex4 c.toNat
    else
      '\\' :: 'u' :: jsonHex4 (55296 + (c.toNat - 65536) / 1024) ++
      '\\' :: 'u' :: jsonHex4 (56320 + (c.toNat - 65536) % 1024)
  else [c]

def jsonStr (s : Str) : Str := '"' :: s.flatMap jsonEscChar ++ ['"']

/-- `n` spaces. -/
def spaces (n : Nat) : Str := List.replicate n ' '

mutual
/-- `json.dump(v, file, indent=2)`: the serialized text, with the current
indentation level as second argument. -/
def jsonDumpAt : JVal → Nat → Str
  | .jnull, _ => lc "null"
  | .jbool true, _ => lc "true"
  | .jbool false, _ => lc "false"
  | .jint i, _ => intRepr i
  | .jstr s, _ => jsonStr s
  | .jarr [], _ => lc "[]"
  | .jarr (x :: xs), ind =>
    '[' :: '\n' :: jsonDumpItems (x :: xs) (ind + 2) ++
    '\n' :: spaces ind ++ [']']
  | .jobj [], _ => lc "{}"
  | .jobj (f :: fs), ind =>
    '{' :: '\n' :: jsonDumpFields (f :: fs) (ind + 2) ++
    '\n' :: spaces ind ++ ['}']

def jsonDumpItems : List JVal → Nat → Str
  | [], _ => []
  | [x], ind => spaces ind ++ jsonDumpAt x ind
  | x :: y :: xs, ind =>
    spaces ind ++ jsonDumpAt x ind ++ ',' :: '\n' :: jsonDumpItems (y :: xs) ind

def jsonDumpFields : List (Str × JVal) → Nat → Str
  | [], _ => []
  | [(k, v)], ind => spaces ind ++ jsonStr k ++ ':' :: ' ' :: jsonDumpAt v ind
  | (k, v) :: f :: fs, ind =>
    spaces ind ++ jsonStr k ++ ':' :: ' ' :: jsonDumpAt v ind ++
    ',' :: '\n' :: jsonDumpFields (f :: fs) ind
end

/-- `json.dump(d, file, indent=2)`: the full file content. -/
def jsonDump (v : JVal) : Str := jsonDumpAt v 0

/-- Python `len()` of a JSON value (`None`, `bool` and `int` raise
`TypeError`). -/
def pyLen : JVal → Option Nat
  | .jstr s => some s.length
  | .jarr xs => some xs.length
  | .jobj fs => some fs.length
  | _ => none

/-- `d[k]` on a dict: `KeyError` when absent. -/
def objGet (fs : List (Str × JVal)) (k : Str) : Except String JVal :=
  match fs.find? (fun e => e.1 = k) with
  | some e => .ok e.2
  | none => .error "KeyError"

/-- `d.pop(k)` on a dict: the value and the remaining entries. -/
def objPop : List (Str × JVal) → Str → Except String (JVal × List (Str × JVal))
  | [], _ => .error "KeyError"
  | (k₀, v₀) :: rest, k =>
    if k₀ = k then .ok (v₀, rest)
    else
      match objPop rest k with
      | .ok (v, rest') => .ok (v, (k₀, v₀) :: rest')
      | .error e => .error e

/-- `d[k] = v` on a dict: replace in place if present, else append. -/
def objSet : List (Str × JVal) → Str → JVal → List (Str × JVal)
  | [], k, v => [(k, v)]
  | (k₀, v₀) :: rest, k, v =>
    if k₀ = k then (k, v) :: rest else (k₀, v₀) :: objSet rest k v

/-- `dict(val)` as used in the key-renaming stage of `export`: a `dict` is
returned as is, a `list` must consist of two-element lists whose first
component is a string; everything else raises `TypeError`. -/
def toDict : JVal → Except String (List (Str × JVal))
  | .jobj fs => .ok fs
  | .jarr xs =>
    xs.foldr
      (fun x acc =>
        match x, acc with
        | .jarr [.jstr k, v], .ok ps => .ok ((k, v) :: ps)
        | _, .ok _ => .error "TypeError"
        | _, .error e => .error e)
      (.ok [])
  | _ => .error "TypeError"

/-- One execution of
`d_copy[key][nested_key][RANDOMDATA[k]] = d_copy[key][nested_key].pop(k)`
(lines 158-161): read the current objects along the path in `d_copy`,
pop key `k` of the innermost dict, re-insert it under its substitute, and
write the path back (mirroring Python's in-place mutation). -/
def renameOne (tbl : List (JVal × Str)) (dcopy : List (Str × JVal))
    (key nk k : Str) : Except String (List (Str × JVal)) :=
  match objGet dcopy key with
  | .error e => .error e
  | .ok cur =>
    match cur with
    | .jobj g =>
      match objGet g nk with
      | .error e => .error e
      | .ok inner =>
        match inner with
        | .jobj m =>
          match objPop m k with
          | .error e => .error e
          | .ok (v, m₁) =>
            let sub := (dictGet tbl (.jstr k)).getD []
            .ok (objSet dcopy key (.jobj (objSet g nk (.jobj (objSet m₁ sub v)))))
        | _ => .error "AttributeError"
    | _ => .error "TypeError"

/-- The `for k in [text for text in nested_val if isinstance(text, str)]` loop
(lines 156-161), over the snapshot `ks` of the nested dict's keys. -/
def renameNestedKeys (tbl : List (JVal × Str)) (dcopy : List (Str × JVal))
    (key nk : Str) : List Str → Except String (List (Str × JVal))
  | [] => .ok dcopy
  | k :: ks =>
    if (dictGet tbl (.jstr k)).isSome then
      match renameOne tbl dcopy key nk k with
      | .ok dcopy' => renameNestedKeys tbl dcopy' key nk ks
      | .error e => .error e
    else renameNestedKeys tbl dcopy key nk ks

/-- One step of the `for nested_key, nested_val in dict(val).items()` loop
(lines 153-161): when the nested value is a dict, rename its keys. -/
def entryStep (tbl : List (JVal × Str)) (key : Str)
    (acc : Except String (List (Str × JVal))) (p : Str × JVal) :
    Except String (List (Str × JVal)) :=
  match acc with
  | .error e => .error e
  | .ok dc =>
    match p.2 with
    | .jobj m => renameNestedKeys tbl dc key p.1 (m.map Prod.fst)
    | _ => .ok dc

/-- The body of the `for key, val in d.items()` loop (lines 152-164): rename
keys of dicts nested inside `dict(val)`'s values, then rename the root key
itself when it is in the table (pop, then insert under the substitute). -/
def renameEntry (tbl : List (JVal × Str)) (dcopy : List (Str × JVal))
    (key : Str) (val : JVal) : Except String (List (Str × JVal)) :=
  match toDict val with
  | .error e => .error e
  | .ok pairs =>
    match pairs.foldl (entryStep tbl key) (Except.ok dcopy) with
    | .error e => .error e
    | .ok dc₁ =>
      if (dictGet tbl (.jstr key)).isSome then
        match objPop dc₁ key with
        | .error e => .error e
        | .ok (v, dc₂) =>
          .ok (objSet dc₂ ((dictGet tbl (.jstr key)).getD []) v)
      else .ok dc₁

/-- One step of the `for key, val in d.items()` loop: process one root
entry. -/
def rootStep (tbl : List (JVal × Str)) (acc : Except String (List (Str × JVal)))
    (e : Str × JVal) : Except String (List (Str × JVal)) :=
  match acc with
  | .error msg => .error msg
  | .ok dc => renameEntry tbl dc e.1 e.2

/-- The key-renaming stage of `export` (lines 149-165, active when
`randomkeys` is true): iterate over the original entries of `d`, mutating the
shallow copy `d_copy`. -/
def renameStage (tbl : List (JVal × Str)) : JVal → Except String JVal
  | .jobj fs =>
    match fs.foldl (rootStep tbl) (Except.ok fs) with
    | .ok final => .ok (.jobj final)
    | .error e => .error e
  | _ => .error "AttributeError"

/-- `export(filename, d, skip_randomize, randomkeys)` from `export_system.py`
lines 135-173, modelled up to the file system: the result is the text written
to the file (`none` when the empty-document guard skips the write) together
with the final state. -/
def exportFn (_filename : Str) (d : JVal) (skip_randomize randomkeys : Bool)
    (st : RState) : Except String (Option Str × RState) :=
  let d := if truthy d = false then JVal.jobj [] else d
  match pyLen d with
  | none => .error "TypeError"
  | some 0 => .ok (none, st)
  | some (_ + 1) =>
    if st.RANDOMIZE = true ∧ skip_randomize = false then
      match checkKeys d st with
      | .error e => .error e
      | .ok (d₁, st₁) =>
        if randomkeys then
          match renameStage st₁.RANDOMDATA d₁ with
          | .ok d₂ => .ok (some (jsonDump d₂), st₁)
          | .error e => .error e
        else .ok (some (jsonDump d₁), st₁)
    else .ok (some (jsonDump d), st)

/-! ## Specification-side definitions

These follow the wording of the specification and are compared with the
definitions translated from the source. -/

/-- The spec's description of the blob branch: every table original whose
length is not 32 is textually replaced by its registered substitute, in
table order. -/
def blobReplaceSpec (tbl : List (JVal × Str)) (s : Str) : Str :=
  tbl.foldl
    (fun acc e =>
      match e.1 with
      | .jstr o => if o.length = 32 then acc else pyReplace acc o e.2
      | _ => acc)
    s

/-- The substitute of a key string under the table, the key itself when it is
not in the table. -/
def keySub (tbl : List (JVal × Str)) (k : Str) : Str :=
  match dictGet tbl (.jstr k) with
  | some s => s
  | none => k

/-- Spec-side renaming of the keys of one dict: keys not in the table keep
their positions, renamed keys move to the end (in their original relative
order), mirroring `pop` followed by re-insertion. -/
def renameObjSpec (tbl : List (JVal × Str)) (m : List (Str × JVal)) :
    List (Str × JVal) :=
  m.filter (fun e => (dictGet tbl (.jstr e.1)).isNone) ++
  (m.filter (fun e => (dictGet tbl (.jstr e.1)).isSome)).map
    (fun e => (keySub tbl e.1, e.2))

/-- Spec-side transformation of one nested (depth-1) value: dicts two levels
down get their keys renamed, everything else is untouched. -/
def renameSub (tbl : List (JVal × Str)) : JVal → JVal
  | .jobj m => .jobj (renameObjSpec tbl m)
  | v => v

/-- Spec-side transformation of one root value under key renaming: the keys
one level down are untouched; the keys of dicts two levels down are renamed;
anything deeper is untouched. -/
def renameValSpec (tbl : List (JVal × Str)) : JVal → JVal
  | .jobj nv => .jobj (nv.map (fun e => (e.1, renameSub tbl e.2)))
  | v => v

/-- Spec-side key renaming of a whole document: rename keys of dicts nested
two levels down inside every root value, then rename the root keys
themselves. -/
def renameSpec (tbl : List (JVal × Str)) (d : List (Str × JVal)) :
    List (Str × JVal) :=
  renameObjSpec tbl (d.map (fun e => (e.1, renameValSpec tbl e.2)))

/-- The inner key-renaming loop of `export` (lines 156-161) localized to the
depth-two dict it mutates: pop each snapshot key that is in the table and
re-insert its value under the substitute. -/
def renameLocal (tbl : List (JVal × Str)) : List Str → List (Str × JVal) →
    Except String (List (Str × JVal))
  | [], m => .ok m
  | k :: ks, m =>
    if (dictGet tbl (.jstr k)).isSome then
      match objPop m k with
      | .ok (v, m₁) =>
        renameLocal tbl ks (objSet m₁ ((dictGet tbl (.jstr k)).getD []) v)
      | .error e => .error e
    else renameLocal tbl ks m

/-- Collision-freedom hypotheses for renaming the keys of one dict: its keys
are distinct, the substitutes of its table-hit keys are fresh, and distinct
hit keys have distinct substitutes. -/
@[reducible] def dict2Hyp (tbl : List (JVal × Str)) (m : List (Str × JVal)) : Prop :=
  ((m.map Prod.fst).Nodup) ∧
  (∀ e ∈ m, (dictGet tbl (.jstr e.1)).isSome = true →
    keySub tbl e.1 ∉ m.map Prod.fst) ∧
  m.Pairwise (fun e em => (dictGet tbl (.jstr e.1)).isSome = true →
    (dictGet tbl (.jstr em.1)).isSome = true →
    keySub tbl e.1 ≠ keySub tbl em.1)

/-- The `i`-th synthetic wifi name `wifi-network-i`. -/
def wifiName (i : Nat) : Str := lc "wifi-network-" ++ natRepr i

/-- The number of table values containing `"wifi-network-"`, as counted by
the wifi branch of `randomize`. -/
def wifiCount (tbl : List (JVal × Str)) : Nat :=
  tbl.countP (fun e => strIn (lc "wifi-network-") e.2)

/-- Invariant of the substitution table: every falsy key maps to the empty
string (falsy values are never given a substitute). -/
def TableInv (tbl : List (JVal × Str)) : Prop :=
  ∀ e ∈ tbl, truthy e.1 = true ∨ e.2 = []

/-- Invariant of the substitution table: the synthetic wifi names present
among the values are exactly `wifi-network-1` … `wifi-network-n` where `n` is
the wifi count. -/
def WifiInv (tbl : List (JVal × Str)) : Prop :=
  ∀ m : Nat, 1 ≤ m →
    ((wifiName m) ∈ tbl.map Prod.snd ↔ m ≤ wifiCount tbl)

/-- All table keys are strings (the substitution table of the spec's data
model maps original strings to replacement strings). -/
def StrKeys (tbl : List (JVal × Str)) : Prop :=
  ∀ e ∈ tbl, ∃ s, e.1 = JVal.jstr s

/-- States reachable within one export run: an initial state has an empty
substitution table, and every step is a successful call to `randomize`
(the only operation that mutates the table). -/
inductive Reachable : RState → Prop
  | init (b : Bool) (rng : Nat → Nat) : Reachable ⟨b, [], rng, 0⟩
  | step {st st' : RState} {v : JVal} {k : Str} {r : JVal} :
      Reachable st → randomize v k st = .ok (r, st') → Reachable st'

/-- Whether a value is acceptable under a sensitive key: a string, or a
falsy scalar (`None`, `False`, `0`; the empty string is a string). -/
def safeSens : JVal → Bool
  | .jstr _ => true
  | .jnull => true
  | .jbool b => !b
  | .jint n => n = 0
  | _ => false

mutual
/-- Sufficient condition for the `check_keys` field loop not to raise: every
value is structurally safe, and values of sensitive keys are strings or
falsy scalars. -/
def safeFields : List (Str × JVal) → Bool
  | [] => true
  | (k, v) :: rest =>
    safeSub v && (!sensitive k || safeSens v) && safeFields rest

/-- Structural safety of a dict value: sub-dicts and sub-lists must be
recursively safe. -/
def safeSub : JVal → Bool
  | .jobj fs => safeFields fs
  | .jarr xs => safeElems xs
  | _ => true

/-- Safety of list elements: no `None` or nested list directly inside a
list (both raise `AttributeError` under `check_keys`). -/
def safeElems : List JVal → Bool
  | [] => true
  | x :: xs => safeElem x && safeElems xs

def safeElem : JVal → Bool
  | .jobj fs => safeFields fs
  | .jnull => false
  | .jarr _ => false
  | _ => true
end

/-- Top-level safety for `check_keys`: scalars are returned unchanged, dicts
must be recursively safe, `None` and lists raise. -/
def safeDoc : JVal → Bool
  | .jnull => false
  | .jarr _ => false
  | .jobj fs => safeFields fs
  | _ => true

/-! ## Basic lemmas about the string and table operations -/

theorem isPrefixOf_exists : ∀ p s : Str, p.isPrefixOf s = true ↔ ∃ t, s = p ++ t
  | [], s => by simp [List.isPrefixOf]
  | a :: as, [] => by simp [List.isPrefixOf]
  | a :: as, b :: bs => by
    simp only [List.isPrefixOf, Bool.and_eq_true, beq_iff_eq,
      isPrefixOf_exists as bs, List.cons_append, List.cons.injEq]
    constructor
    · rintro ⟨rfl, t, rfl⟩; exact ⟨t, rfl, rfl⟩
    · rintro ⟨t, rfl, rfl⟩; exact ⟨rfl, t, rfl⟩

theorem strIn_iff : ∀ p s : Str, strIn p s = true ↔ ∃ a b, s = a ++ p ++ b
  | p, [] => by
    simp only [strIn, List.isEmpty_iff]
    constructor
    · rintro rfl; exact ⟨[], [], rfl⟩
    · rintro ⟨a, b, h⟩
      rcases List.append_eq_nil.mp h.symm with ⟨h₁, h₂⟩
      exact (List.append_eq_nil.mp h₁).2
  | p, c :: rest => by
    simp only [strIn, Bool.or_eq_true, isPrefixOf_exists, strIn_iff p rest]
    constructor
    · rintro (⟨t, ht⟩ | ⟨a, b, rfl⟩)
      · exact ⟨[], t, by simpa using ht⟩
      · exact ⟨c :: a, b, rfl⟩
    · rintro ⟨a, b, h⟩
      cases a with
      | nil => exact Or.inl ⟨b, by simpa using h⟩
      | cons a₀ a' =>
        rw [List.cons_append, List.cons_append] at h
        injection h with h₀ h₁
        exact Or.inr ⟨a', b, h₁⟩

theorem strIn_of_append (p a b : Str) : strIn p (a ++ p ++ b) = true :=
  (strIn_iff p _).mpr ⟨a, b, rfl⟩

/-- If some character of `p` does not occur in `s`, then `p` is not a
substring of `s`. -/
theorem strIn_eq_false (p s : Str) (c : Char) (hc : c ∈ p) (hs : c ∉ s) :
    strIn p s = false := by
  by_contra h
  rcases (strIn_iff p s).mp (by revert h; cases strIn p s <;> simp) with ⟨a, b, rfl⟩
  exact hs (by simp [hc])

theorem choices_length (al : Str) (k : Nat) (st : RState) :
    (choices al k st).1.length = k := by simp [choices]

theorem choices_pos (al : Str) (k : Nat) (st : RState) :
    (choices al k st).2 = { st with pos := st.pos + k } := rfl

theorem choices_mem (al : Str) (k : Nat) (st : RState) (hal : al ≠ [])
    (c : Char) (hc : c ∈ (choices al k st).1) : c ∈ al := by
  simp only [choices, List.mem_map, List.mem_range] at hc
  obtain ⟨i, _, rfl⟩ := hc
  have hlen : 0 < al.length := List.length_pos.mpr hal
  have hlt : st.rng (st.pos + i) % al.length < al.length := Nat.mod_lt _ hlen
  rw [List.getD_eq_getElem al 'A' hlt]
  exact List.getElem_mem hlt

theorem dictGet_mem {t : List (JVal × Str)} {k : JVal} {w : Str}
    (h : dictGet t k = some w) : (k, w) ∈ t := by
  induction t with
  | nil => simp [dictGet] at h
  | cons e rest ih =>
    obtain ⟨k₀, v₀⟩ := e
    rw [dictGet] at h
    split at h
    · next heq =>
      injection h with h'
      subst heq; subst h'
      exact List.mem_cons_self _ _
    · exact List.mem_cons_of_mem _ (ih h)

theorem dictGet_update_self (t : List (JVal × Str)) (k : JVal) (v : Str) :
    dictGet (dictUpdate t k v) k = some v := by
  induction t with
  | nil => simp [dictUpdate, dictGet]
  | cons e rest ih =>
    obtain ⟨k₀, v₀⟩ := e
    rw [dictUpdate]
    split
    · simp [dictGet]
    · next hne => rw [dictGet, if_neg hne]; exact ih

theorem dictGet_update_other (t : List (JVal × Str)) (k k' : JVal) (v : Str)
    (h : k' ≠ k) : dictGet (dictUpdate t k v) k' = dictGet t k' := by
  induction t with
  | nil => simp [dictUpdate, dictGet, Ne.symm h]
  | cons e rest ih =>
    obtain ⟨k₀, v₀⟩ := e
    rw [dictUpdate]
    split
    · next heq =>
      subst heq
      simp [dictGet, Ne.symm h]
    · next hne =>
      rw [dictGet, dictGet]
      split
      · rfl
      · exact ih

theorem vals_update_of_none {t : List (JVal × Str)} {k : JVal} (v : Str)
    (h : dictGet t k = none) :
    (dictUpdate t k v).map Prod.snd = t.map Prod.snd ++ [v] := by
  induction t with
  | nil => simp [dictUpdate]
  | cons e rest ih =>
    obtain ⟨k₀, v₀⟩ := e
    rw [dictGet] at h
    split at h
    · exact absurd h (by simp)
    · next hne => simp [dictUpdate, hne, ih h]

theorem mem_vals_update_some {t : List (JVal × Str)} {k : JVal} {w : Str}
    (v x : Str) (h : dictGet t k = some w) (hx : x ≠ w) :
    (x ∈ (dictUpdate t k v).map Prod.snd) ↔ (x = v ∨ x ∈ t.map Prod.snd) := by
  induction t with
  | nil => simp [dictGet] at h
  | cons e rest ih =>
    obtain ⟨k₀, v₀⟩ := e
    rw [dictGet] at h
    split at h
    · next heq =>
      injection h with h'
      subst heq; subst h'
      simp [dictUpdate, List.mem_cons, hx]
    · next hne =>
      simp only [dictUpdate, if_neg hne, List.map_cons, List.mem_cons, ih h]
      tauto

theorem countP_update_of_none {t : List (JVal × Str)} {k : JVal} (v : Str)
    (p : Str → Bool) (h : dictGet t k = none) :
    (dictUpdate t k v).countP (fun e => p e.2) =
      t.countP (fun e => p e.2) + (if p v then 1 else 0) := by
  induction t with
  | nil => simp [dictUpdate, List.countP_cons]
  | cons e rest ih =>
    obtain ⟨k₀, v₀⟩ := e
    rw [dictGet] at h
    split at h
    · exact absurd h (by simp)
    · next hne =>
      simp only [dictUpdate, if_neg hne, List.countP_cons, ih h]
      omega

theorem countP_update_of_some {t : List (JVal × Str)} {k : JVal} {w : Str}
    (v : Str) (p : Str → Bool) (h : dictGet t k = some w) (hw : p w = false) :
    (dictUpdate t k v).countP (fun e => p e.2) =
      t.countP (fun e => p e.2) + (if p v then 1 else 0) := by
  induction t with
  | nil => simp [dictGet] at h
  | cons e rest ih =>
    obtain ⟨k₀, v₀⟩ := e
    rw [dictGet] at h
    split at h
    · next heq =>
      injection h with h'
      subst heq; subst h'
      simp [dictUpdate, List.countP_cons, hw]
    · next hne =>
      simp only [dictUpdate, if_neg hne, List.countP_cons, ih h]
      omega

/-! ## Claim C1: run-scoped determinism of cached substitutes -/

/-- Claim C1 (amended): for every hashable value whose recorded substitute is
nonempty, and any key hint, `randomize` (with randomization enabled) returns
the previously stored substitute and leaves the state unchanged.  (The claim
as stated fails when the recorded substitute is the empty string, which the
`_id` branch can produce; see the counterexample.) -/
theorem claim_C1_theorem (v : JVal) (k : Str) (st : RState) (r : Str)
    (hflag : st.RANDOMIZE = true) (hh : hashable v = true)
    (hr : dictGet st.RANDOMDATA v = some r) (hne : r ≠ []) :
    randomize v k st = .ok (.jstr r, st) := by
  rw [randomize]
  simp [hflag, hh, hr, hne]

/-- Claim C1, counterexample to the claim as stated: after
`randomize("-", "site_id")` the value `"-"` is present in the table (with the
empty substitute the `_id` branch generates for it), yet a later
`randomize("-", "k")` does not return the stored substitute and does not
leave the table unchanged: it generates a fresh alphabetic string and
overwrites the entry. -/
theorem claim_C1_counterexample :
    randomize (.jstr (lc "-")) (lc "site_id") ⟨true, [], fun _ => 0, 0⟩ =
      .ok (.jstr (lc "-"), ⟨true, [(.jstr (lc "-"), [])], fun _ => 0, 0⟩) ∧
    dictGet [(.jstr (lc "-"), [])] (.jstr (lc "-")) = some [] ∧
    randomize (.jstr (lc "-")) (lc "k") ⟨true, [(.jstr (lc "-"), [])], fun _ => 0, 0⟩ =
      .ok (.jstr ['a'], ⟨true, [(.jstr (lc "-"), ['a'])], fun _ => 0, 1⟩) ∧
    JVal.jstr ['a'] ≠ JVal.jstr [] ∧
    [(JVal.jstr (lc "-"), ['a'])] ≠ [(JVal.jstr (lc "-"), ([] : Str))] :=
  ⟨rfl, rfl, rfl, by decide, by decide⟩

/-- Claim C1, witness: the amended theorem applied to a concrete cached
serial number. -/
theorem claim_C1_witness :
    randomize (.jstr (lc "AB12")) (lc "trace_id")
        ⟨true, [(.jstr (lc "AB12"), lc "ZZ99")], fun _ => 0, 0⟩ =
      .ok (.jstr (lc "ZZ99"), ⟨true, [(.jstr (lc "AB12"), lc "ZZ99")], fun _ => 0, 0⟩) :=
  claim_C1_theorem _ _ _ _ rfl (by decide) (by decide) (by decide)

/-! ## Claim C4: device-name exemption -/

/-- Claim C4 (amended): for every hashable value with no nonempty recorded
substitute, `randomize(v, "device_name")` returns `str(v)` and leaves the
state unchanged.  (The claim as stated — "even when the identical value was
previously substituted under another key" — fails: a cached substitute is
returned before the device-name exemption is consulted; see the
counterexample.) -/
theorem claim_C4_theorem (v : JVal) (st : RState) (hh : hashable v = true)
    (hfresh : (dictGet st.RANDOMDATA v).getD [] = []) :
    randomize v (lc "device_name") st = .ok (.jstr (pyStr v), st) := by
  rw [randomize]
  cases hflag : st.RANDOMIZE
  · simp
  · simp [hh, hfresh]

/-- Claim C4, counterexample to the claim as stated: with `"AB" ↦ "XY"`
already in the table, `randomize("AB", "device_name")` returns `"XY"`, not
`str("AB") = "AB"`: device-name values are altered when they were previously
substituted under another key. -/
theorem claim_C4_counterexample :
    randomize (.jstr (lc "AB")) (lc "device_name")
        ⟨true, [(.jstr (lc "AB"), lc "XY")], fun _ => 0, 0⟩ =
      .ok (.jstr (lc "XY"), ⟨true, [(.jstr (lc "AB"), lc "XY")], fun _ => 0, 0⟩) ∧
    lc "XY" ≠ pyStr (.jstr (lc "AB")) :=
  ⟨rfl, by decide⟩

/-- Claim C4, witness: the amended theorem applied to a fresh device name. -/
theorem claim_C4_witness :
    randomize (.jstr (lc "Kitchen")) (lc "device_name") ⟨true, [], fun _ => 0, 0⟩ =
      .ok (.jstr (pyStr (.jstr (lc "Kitchen"))), ⟨true, [], fun _ => 0, 0⟩) :=
  claim_C4_theorem _ _ (by decide) (by decide)

/-! ## Claim C6: blob substitution -/

theorem blobFold_eq_spec {tbl : List (JVal × Str)} (hkeys : StrKeys tbl) :
    ∀ s : Str, blobFold tbl (.jstr s) = .ok (.jstr (blobReplaceSpec tbl s)) := by
  induction tbl with
  | nil => intro s; rfl
  | cons e rest ih =>
    intro s
    obtain ⟨k₀, v₀⟩ := e
    obtain ⟨os, rfl⟩ := hkeys (k₀, v₀) (List.mem_cons_self _ _)
    have hrest : StrKeys rest := fun e he => hkeys e (List.mem_cons_of_mem _ he)
    by_cases h32 : os.length = 32
    · simp only [blobFold, h32, if_pos rfl, blobReplaceSpec, List.foldl_cons]
      simpa [h32] using ih hrest s
    · simp only [blobFold, if_neg h32, blobReplaceSpec, List.foldl_cons]
      simpa [h32, blobReplaceSpec] using ih hrest (pyReplace s os v₀)

theorem blobReplaceSpec_nil {tbl : List (JVal × Str)} (hkeys : StrKeys tbl)
    (hinv : TableInv tbl) : blobReplaceSpec tbl [] = [] := by
  induction tbl with
  | nil => rfl
  | cons e rest ih =>
    obtain ⟨k₀, v₀⟩ := e
    obtain ⟨os, rfl⟩ := hkeys (k₀, v₀) (List.mem_cons_self _ _)
    have hrest : StrKeys rest := fun e he => hkeys e (List.mem_cons_of_mem _ he)
    have hrestInv : TableInv rest := fun e he => hinv e (List.mem_cons_of_mem _ he)
    have hstep :
        (if os.length = 32 then ([] : Str) else pyReplace [] os v₀) = [] := by
      by_cases h32 : os.length = 32
      · simp [h32]
      · cases hos : os with
        | nil =>
          rcases hinv (JVal.jstr [], v₀) (by simp [hos]) with h | h
          · simp [truthy] at h
          · have h' : v₀ = [] := h
            simp [pyReplace, h32, h']
        | cons c cs => simp [pyReplace, hos, pyReplaceAux, h32]
    have hfold : blobReplaceSpec ((JVal.jstr os, v₀) :: rest) [] =
        blobReplaceSpec rest (if os.length = 32 then [] else pyReplace [] os v₀) := rfl
    rw [hfold, hstep]
    exact ih hrest hrestInv

/-- Claim C6: under a blob key hint (`home_load_data` or `param_data`), a
string value not present in the substitution table is returned with every
table original of length ≠ 32 textually replaced (in table order) by its
registered substitute, and the state — in particular the table — is left
unchanged.  The hypotheses `StrKeys` and `TableInv` record the spec's data
model (the table maps original strings to replacements, falsy originals only
ever map to the empty string), which holds for every state an export run
reaches. -/
theorem claim_C6_theorem (s : Str) (key : Str) (st : RState)
    (hflag : st.RANDOMIZE = true)
    (hkeys : StrKeys st.RANDOMDATA)
    (hinv : TableInv st.RANDOMDATA)
    (hfresh : dictGet st.RANDOMDATA (.jstr s) = none)
    (hkey : key = lc "home_load_data" ∨ key = lc "param_data") :
    randomize (.jstr s) key st = .ok (.jstr (blobReplaceSpec st.RANDOMDATA s), st) := by
  rw [randomize]
  rw [if_neg (by simp [hflag]), if_neg (by simp [hashable])]
  simp only [hfresh, Option.getD_none]
  cases hs : s with
  | nil =>
    rw [if_neg (by simp [truthy])]
    subst hs
    rw [blobReplaceSpec_nil hkeys hinv]
    simp [pyStr]
  | cons c cs =>
    subst hs
    rw [if_pos (show True ∧ truthy (JVal.jstr (c :: cs)) = true ∧
          key ≠ lc "device_name" from
        ⟨trivial, by simp [truthy], by rcases hkey with rfl | rfl <;> decide⟩)]
    rcases hkey with rfl | rfl <;>
    · rw [genValue, if_neg (by decide), if_neg (by decide), if_neg (by decide),
        if_neg (by decide), if_pos (by decide)]
      rw [blobBranch, blobFold_eq_spec hkeys]

/-- Claim C6, witness: a schedule blob containing a previously randomized
serial number, replaced consistently and not registered. -/
theorem claim_C6_witness :
    randomize (.jstr (lc "plan with S1 inside")) (lc "home_load_data")
        ⟨true, [(.jstr (lc "S1"), lc "XY")], fun _ => 0, 0⟩ =
      .ok (.jstr (blobReplaceSpec [(.jstr (lc "S1"), lc "XY")] (lc "plan with S1 inside")),
           ⟨true, [(.jstr (lc "S1"), lc "XY")], fun _ => 0, 0⟩) :=
  claim_C6_theorem _ _ _ rfl
    (fun e he => by
      rcases List.mem_singleton.mp he with rfl
      exact ⟨lc "S1", rfl⟩)
    (fun e he => by
      rcases List.mem_singleton.mp he with rfl
      exact Or.inl (by decide))
    (by decide) (Or.inl rfl)

/-! ## Claim C9: round-trip export with skip_randomize -/

/-- Claim C9: for every non-empty document, `export` with
`skip_randomize=True` produces exactly the two-space-indented JSON
serialization of the unmodified original document and leaves the state (in
particular the substitution table) unchanged, for any `randomkeys` setting
and any state. -/
theorem claim_C9_theorem (fs : List (Str × JVal)) (hne : fs ≠ []) (fn : Str)
    (rk : Bool) (st : RState) :
    exportFn fn (.jobj fs) true rk st = .ok (some (jsonDump (.jobj fs)), st) := by
  obtain ⟨f, fs', rfl⟩ : ∃ f fs', fs = f :: fs' := by
    cases fs with
    | nil => exact absurd rfl hne
    | cons f fs' => exact ⟨f, fs', rfl⟩
  rw [exportFn]
  simp [truthy, pyLen]

/-- Claim C9, witness: a concrete two-field document exported with
`skip_randomize=True`. -/
theorem claim_C9_witness :
    exportFn (lc "api_sites.json")
        (.jobj [(lc "sn", .jstr (lc "AB12")), (lc "x", .jint 7)]) true false
        ⟨true, [], fun _ => 0, 0⟩ =
      .ok (some (jsonDump (.jobj [(lc "sn", .jstr (lc "AB12")), (lc "x", .jint 7)])),
           ⟨true, [], fun _ => 0, 0⟩) :=
  claim_C9_theorem _ (by decide) _ _ _

/-! ## Lemmas for the run invariants -/

theorem getD_nil_cases {o : Option Str} (h : o.getD [] = []) :
    o = none ∨ o = some [] := by
  cases o with
  | none => exact Or.inl rfl
  | some s => exact Or.inr (by simp_all)

theorem dictUpdate_eq_of_get {t : List (JVal × Str)} {k : JVal} {v : Str}
    (h : dictGet t k = some v) : dictUpdate t k v = t := by
  induction t with
  | nil => simp [dictGet] at h
  | cons e rest ih =>
    obtain ⟨k₀, v₀⟩ := e
    rw [dictGet] at h
    rw [dictUpdate]
    split
    · next heq =>
      rw [if_pos heq] at h
      injection h with h'
      rw [heq, h']
    · next hne =>
      rw [if_neg hne] at h
      rw [ih h]

theorem mem_dictUpdate {t : List (JVal × Str)} {k : JVal} {v : Str}
    {e : JVal × Str} (h : e ∈ dictUpdate t k v) : e = (k, v) ∨ e ∈ t := by
  induction t with
  | nil => simpa [dictUpdate] using h
  | cons e₀ rest ih =>
    obtain ⟨k₀, v₀⟩ := e₀
    rw [dictUpdate] at h
    split at h
    · rcases List.mem_cons.mp h with rfl | hm
      · exact Or.inl rfl
      · exact Or.inr (List.mem_cons_of_mem _ hm)
    · rcases List.mem_cons.mp h with rfl | hm
      · exact Or.inr (List.mem_cons_self _ _)
      · rcases ih hm with h' | h'
        · exact Or.inl h'
        · exact Or.inr (List.mem_cons_of_mem _ h')

theorem tableInv_update {t : List (JVal × Str)} {k : JVal} {v : Str}
    (hT : TableInv t) (hkv : truthy k = true ∨ v = []) :
    TableInv (dictUpdate t k v) := by
  intro e he
  rcases mem_dictUpdate he with rfl | he'
  · exact hkv
  · exact hT e he'

theorem digitChar_inj_lt (d₁ d₂ : Nat) (h₁ : d₁ < 10) (h₂ : d₂ < 10)
    (h : Nat.digitChar d₁ = Nat.digitChar d₂) : d₁ = d₂ := by
  have key : ∀ a b : Fin 10, Nat.digitChar a.val = Nat.digitChar b.val → a = b := by
    decide
  have := key ⟨d₁, h₁⟩ ⟨d₂, h₂⟩ h
  exact Fin.val_eq_of_eq this

theorem map_digitChar_inj : ∀ l₁ l₂ : List Nat, (∀ d ∈ l₁, d < 10) →
    (∀ d ∈ l₂, d < 10) → l₁.map Nat.digitChar = l₂.map Nat.digitChar → l₁ = l₂
  | [], [], _, _, _ => rfl
  | [], _ :: _, _, _, h => by simp at h
  | _ :: _, [], _, _, h => by simp at h
  | d₁ :: l₁, d₂ :: l₂, hb₁, hb₂, h => by
    simp only [List.map_cons, List.cons.injEq] at h
    have hd := digitChar_inj_lt d₁ d₂ (hb₁ d₁ (by simp)) (hb₂ d₂ (by simp)) h.1
    have hl := map_digitChar_inj l₁ l₂ (fun d hd => hb₁ d (by simp [hd]))
      (fun d hd => hb₂ d (by simp [hd])) h.2
    rw [hd, hl]

theorem natRepr_inj {n m : Nat} (h : natRepr n = natRepr m) : n = m := by
  have key : ∀ j : Nat, j ≠ 0 →
      (Nat.digits 10 j).reverse.map Nat.digitChar = ['0'] → False := by
    intro j hj hmap
    have hlen : (Nat.digits 10 j).reverse.length = 1 := by
      simpa using congrArg List.length hmap
    obtain ⟨d, hd⟩ := List.length_eq_one.mp hlen
    have hdig : Nat.digits 10 j = [d] := by
      have := congrArg List.reverse hd
      simpa using this
    have hc : Nat.digitChar d = '0' := by
      rw [hd] at hmap
      simpa using hmap
    have hdlt : d < 10 := Nat.digits_lt_base (by norm_num) (by rw [hdig]; simp)
    have hd0 : d = 0 := digitChar_inj_lt d 0 hdlt (by norm_num) (by rw [hc]; rfl)
    have hj0 : j = Nat.ofDigits 10 [d] := by rw [← hdig, Nat.ofDigits_digits]
    rw [hd0] at hj0
    simp [Nat.ofDigits] at hj0
    exact hj hj0
  by_cases hn : n = 0 <;> by_cases hm : m = 0
  · rw [hn, hm]
  · exfalso
    rw [natRepr, if_pos hn, natRepr, if_neg hm] at h
    exact key m hm h.symm
  · exfalso
    rw [natRepr, if_neg hn, natRepr, if_pos hm] at h
    exact key n hn h
  · rw [natRepr, if_neg hn, natRepr, if_neg hm] at h
    have hrev := map_digitChar_inj _ _
      (fun d hd => Nat.digits_lt_base (by norm_num) (List.mem_reverse.mp hd))
      (fun d hd => Nat.digits_lt_base (by norm_num) (List.mem_reverse.mp hd)) h
    have hdig : Nat.digits 10 n = Nat.digits 10 m :=
      List.reverse_injective hrev
    have := congrArg (Nat.ofDigits 10) hdig
    rwa [Nat.ofDigits_digits, Nat.ofDigits_digits] at this

theorem wifiName_inj {n m : Nat} (h : wifiName n = wifiName m) : n = m := by
  rw [wifiName, wifiName] at h
  exact natRepr_inj (List.append_cancel_left h)

theorem strIn_wifiName (m : Nat) :
    strIn (lc "wifi-network-") (wifiName m) = true := by
  rw [wifiName]
  exact (strIn_iff _ _).mpr ⟨[], natRepr m, by simp⟩

theorem wifiName_ne_nil (m : Nat) : wifiName m ≠ [] := by
  rw [wifiName]
  simp [lc]

theorem choices_mem_or (al : Str) (k : Nat) (st : RState)
    (c : Char) (hc : c ∈ (choices al k st).1) : c ∈ al ∨ c = 'A' := by
  simp only [choices, List.mem_map, List.mem_range] at hc
  obtain ⟨i, _, rfl⟩ := hc
  by_cases hal : al = []
  · subst hal; simp
  · have hlen : 0 < al.length := List.length_pos.mpr hal
    have hlt : st.rng (st.pos + i) % al.length < al.length := Nat.mod_lt _ hlen
    rw [List.getD_eq_getElem al 'A' hlt]
    exact Or.inl (List.getElem_mem hlt)

/-- A random draw from an alphabet missing some character of the wifi-name
marker (other than the default `'A'`) never contains the marker. -/
theorem strIn_pat_choices (al : Str) (k : Nat) (st : RState) (c : Char)
    (hcp : c ∈ lc "wifi-network-") (hcal : c ∉ al) (hcA : c ≠ 'A') :
    strIn (lc "wifi-network-") (choices al k st).1 = false := by
  refine strIn_eq_false _ _ c hcp ?_
  intro hc
  rcases choices_mem_or al k st c hc with h | h
  · exact hcal h
  · exact hcA h

theorem pairsOf_chunk_len : ∀ s : Str, ∀ p ∈ pairsOf s, p.length ≤ 2
  | [], p, hp => by simp [pairsOf] at hp
  | [a], p, hp => by simp [pairsOf] at hp
  | a :: b :: rest, p, hp => by
    rw [pairsOf] at hp
    rcases List.mem_cons.mp hp with rfl | hm
    · simp
    · exact pairsOf_chunk_len rest p hm

theorem joinSep_sub_le : ∀ ps : List Str, (∀ p ∈ ps, p.length ≤ 2) →
    ∀ a q b : Str, joinSep ':' ps = a ++ q ++ b → ':' ∉ q → q.length ≤ 2
  | [], _, a, q, b, h, _ => by
    have := congrArg List.length h
    simp [joinSep] at this
    omega
  | [x], hps, a, q, b, h, _ => by
    have hx := hps x (by simp)
    have := congrArg List.length h
    simp [joinSep] at this
    omega
  | x :: y :: xs, hps, a, q, b, h, hq => by
    have hx := hps x (by simp)
    rw [joinSep] at h
    rw [List.append_assoc] at h
    rcases List.append_eq_append_iff.mp h.symm with ⟨a', hxa, hqb⟩ | ⟨c', hax, hjs⟩
    · rcases List.append_eq_append_iff.mp hqb with ⟨d, had, hb⟩ | ⟨d, hqd, hrest⟩
      · have h1 := congrArg List.length hxa
        have h2 := congrArg List.length had
        simp at h1 h2
        omega
      · cases d with
        | nil =>
          have h1 := congrArg List.length hxa
          have h2 := congrArg List.length hqd
          simp at h1 h2
          omega
        | cons c d' =>
          exfalso
          have hc : ':' = c := by
            have := congrArg (fun l => l.head?) hrest
            simpa using this
          apply hq
          rw [hqd, ← hc]
          simp
    · cases c' with
      | nil =>
        simp only [List.nil_append] at hjs
        cases q with
        | nil => simp
        | cons qc q' =>
          exfalso
          apply hq
          have hc : ':' = qc := by
            have := congrArg (fun l => l.head?) hjs
            simpa using this
          rw [← hc]
          simp
      | cons c c'' =>
        obtain ⟨h1, h2⟩ : ':' = c ∧ joinSep ':' (y :: xs) = c'' ++ (q ++ b) := by
          rw [List.cons_append] at hjs
          injection hjs with a1 a2
          exact ⟨a1, a2⟩
        refine joinSep_sub_le (y :: xs) (fun p hp => hps p (by simp [hp])) c'' q b ?_ hq
        rw [h2, List.append_assoc]

/-- A regrouped Bluetooth substitute never contains the wifi-name marker:
its colon-free runs have length at most 2. -/
theorem strIn_pat_regroup (r : Str) :
    strIn (lc "wifi-network-") (regroup r) = false := by
  by_contra hcon
  have hb : strIn (lc "wifi-network-") (regroup r) = true := by
    revert hcon; cases strIn (lc "wifi-network-") (regroup r) <;> simp
  rcases (strIn_iff _ _).mp hb with ⟨a, b, hab⟩
  have hle := joinSep_sub_le (pairsOf r) (pairsOf_chunk_len r) a (lc "wifi-network-") b
    (by rw [← hab]; rfl) (by decide)
  exact absurd hle (by decide)

theorem idLoop_chars : ∀ (parts : List Str) (acc : Str) (st : RState),
    (∀ c ∈ acc, c ∈ hexLower ∨ c = '-') →
    ∀ c ∈ (idLoop parts acc st).1, c ∈ hexLower ∨ c = '-'
  | [], acc, st, hacc, c, hc => hacc c hc
  | part :: rest, acc, st, hacc, c, hc => by
    rw [idLoop] at hc
    have hhex : ∀ c ∈ (choices hexLower part.length st).1, c ∈ hexLower ∨ c = '-' :=
      fun c hc => Or.inl (choices_mem hexLower part.length st (by decide) c hc)
    by_cases hne : acc ≠ []
    · rw [if_pos hne] at hc
      refine idLoop_chars rest _ _ ?_ c hc
      intro c' hc'
      rcases List.mem_append.mp hc' with h | h
      · exact hacc c' h
      · rcases List.mem_cons.mp h with rfl | h
        · exact Or.inr rfl
        · exact hhex c' h
    · rw [if_neg hne] at hc
      exact idLoop_chars rest _ _ hhex c hc

/-- The result of the `_id` loop never contains the wifi-name marker
(its characters are lowercase hex digits and dashes, never `'w'`). -/
theorem strIn_pat_idLoop (parts : List Str) (st : RState) :
    strIn (lc "wifi-network-") (idLoop parts [] st).1 = false := by
  refine strIn_eq_false _ _ 'w' (by decide) ?_
  intro hw
  rcases idLoop_chars parts [] st (by simp) 'w' hw with h | h
  · exact absurd h (by decide)
  · exact absurd h (by decide)

/-- Updating the table at a key whose current value is absent or empty, with
a value free of the wifi-name marker, preserves both run invariants. -/
theorem inv_update_nopat {tbl : List (JVal × Str)} {key : JVal} {x : Str}
    (hT : TableInv tbl) (hW : WifiInv tbl)
    (hold : dictGet tbl key = none ∨ dictGet tbl key = some [])
    (hx : strIn (lc "wifi-network-") x = false)
    (hkv : truthy key = true ∨ x = []) :
    TableInv (dictUpdate tbl key x) ∧ WifiInv (dictUpdate tbl key x) := by
  refine ⟨tableInv_update hT hkv, ?_⟩
  intro m hm
  have hxname : wifiName m ≠ x := by
    intro heq
    rw [← heq] at hx
    rw [strIn_wifiName m] at hx
    simp at hx
  have hcount : wifiCount (dictUpdate tbl key x) = wifiCount tbl := by
    rcases hold with hnone | hsome
    · rw [wifiCount, countP_update_of_none x _ hnone, hx]
      simp [wifiCount]
    · rw [wifiCount, countP_update_of_some x _ hsome (by decide), hx]
      simp [wifiCount]
  rw [hcount]
  rcases hold with hnone | hsome
  · rw [vals_update_of_none x hnone]
    simp only [List.mem_append, List.mem_singleton]
    rw [← hW m hm]
    constructor
    · rintro (hmem | heq)
      · exact hmem
      · exact absurd heq hxname
    · exact Or.inl
  · rw [mem_vals_update_some x _ hsome (wifiName_ne_nil m)]
    rw [← hW m hm]
    constructor
    · rintro (heq | hmem)
      · exact absurd heq hxname
      · exact hmem
    · exact Or.inr

/-- The wifi branch's update (registering the next sequential synthetic
name under a key whose current value is absent or empty) preserves both run
invariants. -/
theorem inv_update_wifi {tbl : List (JVal × Str)} {key : JVal}
    (hT : TableInv tbl) (hW : WifiInv tbl)
    (hold : dictGet tbl key = none ∨ dictGet tbl key = some [])
    (htruthy : truthy key = true) :
    TableInv (dictUpdate tbl key (wifiName (wifiCount tbl + 1))) ∧
    WifiInv (dictUpdate tbl key (wifiName (wifiCount tbl + 1))) := by
  refine ⟨tableInv_update hT (Or.inl htruthy), ?_⟩
  intro m hm
  have hcount : wifiCount (dictUpdate tbl key (wifiName (wifiCount tbl + 1))) =
      wifiCount tbl + 1 := by
    rcases hold with hnone | hsome
    · rw [wifiCount, countP_update_of_none _ _ hnone, strIn_wifiName]
      simp [wifiCount]
    · rw [wifiCount, countP_update_of_some _ _ hsome (by decide), strIn_wifiName]
      simp [wifiCount]
  rw [hcount]
  have hmem : wifiName m ∈ (dictUpdate tbl key (wifiName (wifiCount tbl + 1))).map Prod.snd ↔
      (wifiName m = wifiName (wifiCount tbl + 1) ∨ wifiName m ∈ tbl.map Prod.snd) := by
    rcases hold with hnone | hsome
    · rw [vals_update_of_none _ hnone]
      simp only [List.mem_append, List.mem_singleton]
      tauto
    · exact mem_vals_update_some _ _ hsome (wifiName_ne_nil m)
  rw [hmem, hW m hm]
  constructor
  · rintro (heq | hmem')
    · rw [wifiName_inj heq]
    · omega
  · intro hle
    by_cases hmc : m = wifiCount tbl + 1
    · exact Or.inl (by rw [hmc])
    · exact Or.inr (by omega)

/-- `choices` produces the empty string when asked for zero characters. -/
theorem choices_zero (al : Str) (st : RState) : (choices al 0 st).1 = [] := by
  simp [choices]

/-- A successful `randomize` call preserves both run invariants of the
substitution table. -/
theorem randomize_inv {v : JVal} {k : Str} {st st' : RState} {r : JVal}
    (h : randomize v k st = .ok (r, st'))
    (hT : TableInv st.RANDOMDATA) (hW : WifiInv st.RANDOMDATA) :
    TableInv st'.RANDOMDATA ∧ WifiInv st'.RANDOMDATA := by
  rw [randomize] at h
  split at h
  · simp only [Except.ok.injEq, Prod.mk.injEq] at h
    rw [← h.2]
    exact ⟨hT, hW⟩
  · split at h
    · simp at h
    · split at h
      · next hcond =>
        obtain ⟨hrs, htr, hkey⟩ := hcond
        have hold := getD_nil_cases hrs
        rw [genValue] at h
        split at h
        · -- serial-number branch
          cases v with
          | jstr s =>
            simp only [snBranch, Except.ok.injEq, Prod.mk.injEq] at h
            rw [← h.2]
            exact inv_update_nopat hT hW hold
              (strIn_pat_choices _ _ _ 'w' (by decide) (by decide) (by decide))
              (Or.inl htr)
          | jnull => simp [snBranch] at h
          | jbool b => simp [snBranch] at h
          | jint n => simp [snBranch] at h
          | jarr xs => simp [snBranch] at h
          | jobj fs => simp [snBranch] at h
        · split at h
          · -- bluetooth branch
            cases v with
            | jstr s =>
              rw [btBranch] at h
              have hfirst : TableInv (dictUpdate st.RANDOMDATA (.jstr (btTemp s)) (btR s st).1) ∧
                  WifiInv (dictUpdate st.RANDOMDATA (.jstr (btTemp s)) (btR s st).1) := by
                rw [btR]
                split
                · next hr0 =>
                  refine inv_update_nopat hT hW (getD_nil_cases hr0)
                    (strIn_pat_choices _ _ _ 'w' (by decide) (by decide) (by decide)) ?_
                  cases htmp : btTemp s with
                  | nil => exact Or.inr (choices_zero hexUpper st)
                  | cons c cs => exact Or.inl (by simp [truthy])
                · next hr0 =>
                  have hget : dictGet st.RANDOMDATA (.jstr (btTemp s)) =
                      some ((dictGet st.RANDOMDATA (.jstr (btTemp s))).getD []) := by
                    cases hg : dictGet st.RANDOMDATA (.jstr (btTemp s)) with
                    | none => rw [hg] at hr0; simp at hr0
                    | some w => simp [hg]
                  rw [dictUpdate_eq_of_get hget]
                  exact ⟨hT, hW⟩
              split at h
              · -- value contained colons
                next hcolon =>
                simp only [Except.ok.injEq, Prod.mk.injEq] at h
                rw [← h.2]
                have hdiff : (JVal.jstr s) ≠ (JVal.jstr (btTemp s)) := by
                  intro heq
                  injection heq with heq'
                  have : ':' ∈ btTemp s := by rw [← heq']; exact hcolon
                  rw [btTemp] at this
                  rcases List.mem_filter.mp this with ⟨_, hcc⟩
                  simp at hcc
                have hold' : dictGet (dictUpdate st.RANDOMDATA (.jstr (btTemp s)) (btR s st).1)
                    (JVal.jstr s) = none ∨
                    dictGet (dictUpdate st.RANDOMDATA (.jstr (btTemp s)) (btR s st).1)
                    (JVal.jstr s) = some [] := by
                  rw [dictGet_update_other _ _ _ _ hdiff]
                  exact hold
                exact inv_update_nopat hfirst.1 hfirst.2 hold'
                  (strIn_pat_regroup _) (Or.inl htr)
              · -- value had no colons
                next hcolon =>
                simp only [Except.ok.injEq, Prod.mk.injEq] at h
                rw [← h.2]
                have htemp : btTemp s = s := by
                  rw [btTemp]
                  refine List.filter_eq_self.mpr ?_
                  intro c hc
                  simp only [decide_eq_true_eq]
                  intro hceq
                  exact hcolon (hceq ▸ hc)
                have hr0 : (dictGet st.RANDOMDATA (.jstr (btTemp s))).getD [] = [] := by
                  rw [htemp]
                  exact hrs
                have hbtr : (btR s st).1 = (choices hexUpper (btTemp s).length st).1 := by
                  rw [btR, if_pos hr0]
                rw [hbtr]
                exact inv_update_nopat hT hW hold
                  (strIn_pat_choices _ _ _ 'w' (by decide) (by decide) (by decide))
                  (Or.inl htr)
            | jnull => simp [btBranch] at h
            | jbool b => simp [btBranch] at h
            | jint n => simp [btBranch] at h
            | jarr xs => simp [btBranch] at h
            | jobj fs => simp [btBranch] at h
          · split at h
            · -- id branch
              cases v with
              | jstr s =>
                simp only [idBranch, Except.ok.injEq, Prod.mk.injEq] at h
                rw [← h.2]
                exact inv_update_nopat hT hW hold (strIn_pat_idLoop _ _) (Or.inl htr)
              | jnull => simp [idBranch] at h
              | jbool b => simp [idBranch] at h
              | jint n => simp [idBranch] at h
              | jarr xs => simp [idBranch] at h
              | jobj fs => simp [idBranch] at h
            · split at h
              · -- wifi branch
                simp only [wifiBranch, Except.ok.injEq, Prod.mk.injEq] at h
                rw [← h.2]
                exact inv_update_wifi hT hW hold htr
              · split at h
                · -- blob branch
                  rw [blobBranch] at h
                  split at h
                  · next heq =>
                    simp only [Except.ok.injEq, Prod.mk.injEq] at h
                    rw [← h.2]
                    exact ⟨hT, hW⟩
                  · simp at h
                · -- default branch
                  cases v with
                  | jstr s =>
                    simp only [defBranch, Except.ok.injEq, Prod.mk.injEq] at h
                    rw [← h.2]
                    exact inv_update_nopat hT hW hold
                      (strIn_pat_choices _ _ _ '-' (by decide) (by decide) (by decide))
                      (Or.inl htr)
                  | jnull => simp [defBranch] at h
                  | jbool b => simp [defBranch] at h
                  | jint n => simp [defBranch] at h
                  | jarr xs => simp [defBranch] at h
                  | jobj fs => simp [defBranch] at h
      · simp only [Except.ok.injEq, Prod.mk.injEq] at h
        rw [← h.2]
        exact ⟨hT, hW⟩

/-- Every state reachable within one export run satisfies both table
invariants. -/
theorem reachable_inv {st : RState} (h : Reachable st) :
    TableInv st.RANDOMDATA ∧ WifiInv st.RANDOMDATA := by
  induction h with
  | init b rng =>
    constructor
    · intro e he; simp at he
    · intro m hm
      constructor
      · intro hmem; simp at hmem
      · intro hle; simp [wifiCount] at hle; omega
  | step hreach hrand ih => exact randomize_inv hrand ih.1 ih.2

/-! ## Claim C10: falsy values are never substituted -/

/-- Claim C10: in any state reachable within one export run, a falsy
(hashable) value — `None`, `False`, `0`, or the empty string — is returned as
its `str()` form by `randomize` under every key hint, and the state (in
particular the substitution table) is unchanged: falsy values are coerced,
never anonymized. -/
theorem claim_C10_theorem (v : JVal) (k : Str) (st : RState)
    (hreach : Reachable st) (hfalsy : truthy v = false) (hh : hashable v = true) :
    randomize v k st = .ok (.jstr (pyStr v), st) := by
  rw [randomize]
  cases hflag : st.RANDOMIZE
  · simp
  · rw [if_neg (by simp [hflag]), if_neg (by simp [hh])]
    have hTI := (reachable_inv hreach).1
    have hget : (dictGet st.RANDOMDATA v).getD [] = [] := by
      cases hg : dictGet st.RANDOMDATA v with
      | none => rfl
      | some w =>
        rcases hTI (v, w) (dictGet_mem hg) with h | h
        · rw [hfalsy] at h; simp at h
        · simpa using h
    rw [if_neg]
    · simp [hget]
    · rintro ⟨h1, h2, h3⟩
      rw [hfalsy] at h2
      simp at h2

/-- Claim C10, witness: `None` under a serial-number key is coerced to the
string `"None"` in the initial state of a run, with no table entry added. -/
theorem claim_C10_witness :
    randomize .jnull (lc "_sn") ⟨true, [], fun _ => 0, 0⟩ =
      .ok (.jstr (pyStr .jnull), ⟨true, [], fun _ => 0, 0⟩) :=
  claim_C10_theorem .jnull (lc "_sn") _ (Reachable.init true (fun _ => 0))
    (by decide) (by decide)

/-! ## Claim C8: wifi-name sequence -/

/-- Claim C8: within one run (any reachable state), whenever the wifi branch
of `randomize` generates a substitute, the generated name is
`wifi-network-(n+1)` where `n` is the number of synthetic wifi names already
in the table; the count then increases by exactly one, the new name is
distinct from every table value (in particular from every previously
generated wifi name), and the wifi names present in the table are exactly
`wifi-network-1` … `wifi-network-n`.  Hence the `i`-th generated name of a
run is `wifi-network-i`, starting at `wifi-network-1`, all pairwise
distinct and strictly sequential. -/
theorem claim_C8_theorem (v : JVal) (k : Str) (st st' : RState) (r : JVal)
    (hreach : Reachable st)
    (hflag : st.RANDOMIZE = true) (hh : hashable v = true)
    (hfresh : (dictGet st.RANDOMDATA v).getD [] = [])
    (htruthy : truthy v = true)
    (hwifi : strIn (lc "wifi_name") k = true)
    (hsn : strIn (lc "_sn") k = false) (hsneq : k ≠ lc "sn")
    (hbt : strIn (lc "bt_ble_") k = false) (hid : strIn (lc "_id") k = false)
    (hdev : k ≠ lc "device_name")
    (h : randomize v k st = .ok (r, st')) :
    r = .jstr (wifiName (wifiCount st.RANDOMDATA + 1)) ∧
    wifiCount st'.RANDOMDATA = wifiCount st.RANDOMDATA + 1 ∧
    wifiName (wifiCount st.RANDOMDATA + 1) ∉ st.RANDOMDATA.map Prod.snd ∧
    (∀ m : Nat, 1 ≤ m →
      (wifiName m ∈ st.RANDOMDATA.map Prod.snd ↔ m ≤ wifiCount st.RANDOMDATA)) := by
  have hW := (reachable_inv hreach).2
  rw [randomize, if_neg (by simp [hflag]), if_neg (by simp [hh]),
    if_pos ⟨hfresh, htruthy, hdev⟩, genValue, if_neg (by simp [hsn, hsneq]),
    if_neg (by simp [hbt]), if_neg (by simp [hid]), if_pos (by simp [hwifi]),
    wifiBranch] at h
  simp only [Except.ok.injEq, Prod.mk.injEq] at h
  obtain ⟨hr, hst⟩ := h
  refine ⟨hr.symm, ?_, ?_, fun m hm => hW m hm⟩
  · rw [← hst]
    show wifiCount (dictUpdate st.RANDOMDATA v
      (wifiName (wifiCount st.RANDOMDATA + 1))) = wifiCount st.RANDOMDATA + 1
    rcases getD_nil_cases hfresh with hnone | hsome
    · rw [wifiCount, countP_update_of_none _ _ hnone, strIn_wifiName]
      simp [wifiCount]
    · rw [wifiCount, countP_update_of_some _ _ hsome (by decide), strIn_wifiName]
      simp [wifiCount]
  · intro hmem
    have := (hW (wifiCount st.RANDOMDATA + 1) (by omega)).mp hmem
    omega

/-- Claim C8, witness: in the initial state of a run, the first wifi-name
generation yields `wifi-network-1`, the table's wifi count goes from 0 to 1,
and the name is new. -/
theorem claim_C8_witness :
    (JVal.jstr (lc "wifi-network-" ++ natRepr (0 + 1))) =
      JVal.jstr (wifiName (wifiCount (RState.mk true [] (fun _ => 0) 0).RANDOMDATA + 1)) ∧
    wifiCount (RState.mk true
        [(.jstr (lc "aa"), lc "wifi-network-" ++ natRepr (0 + 1))]
        (fun _ => 0) 0).RANDOMDATA =
      wifiCount (RState.mk true [] (fun _ => 0) 0).RANDOMDATA + 1 ∧
    wifiName (wifiCount (RState.mk true [] (fun _ => 0) 0).RANDOMDATA + 1) ∉
      (RState.mk true [] (fun _ => 0) 0).RANDOMDATA.map Prod.snd ∧
    (∀ m : Nat, 1 ≤ m →
      (wifiName m ∈ (RState.mk true [] (fun _ => 0) 0).RANDOMDATA.map Prod.snd ↔
        m ≤ wifiCount (RState.mk true [] (fun _ => 0) 0).RANDOMDATA)) :=
  claim_C8_theorem (.jstr (lc "aa")) (lc "wifi_name")
    (RState.mk true [] (fun _ => 0) 0)
    (RState.mk true [(.jstr (lc "aa"), lc "wifi-network-" ++ natRepr (0 + 1))]
      (fun _ => 0) 0)
    (.jstr (lc "wifi-network-" ++ natRepr (0 + 1)))
    (Reachable.init true (fun _ => 0)) rfl (by decide) (by decide) (by decide)
    (by decide) (by decide) (by decide) (by decide) (by decide) (by decide) rfl

/-! ## Claim C2: ID shape preservation -/

theorem pySplit_ne_nil (sep : Char) : ∀ s : Str, pySplit sep s ≠ []
  | [] => by simp [pySplit]
  | c :: rest => by
    rw [pySplit]
    split
    · simp
    · split
      · simp
      · next heq => exact absurd heq (pySplit_ne_nil sep rest)

theorem pySplit_append_sep (sep : Char) :
    ∀ a b : Str, pySplit sep (a ++ sep :: b) = pySplit sep a ++ pySplit sep b
  | [], b => by simp [pySplit]
  | c :: a', b => by
    by_cases hc : c = sep
    · rw [List.cons_append, pySplit, if_pos hc, pySplit, if_pos hc,
        pySplit_append_sep sep a' b]
      simp
    · rw [List.cons_append, pySplit, if_neg hc, pySplit, if_neg hc,
        pySplit_append_sep sep a' b]
      cases hsp : pySplit sep a' with
      | nil => exact absurd hsp (pySplit_ne_nil sep a')
      | cons s ss => simp

theorem pySplit_sep_free (sep : Char) :
    ∀ s : Str, (∀ c ∈ s, c ≠ sep) → pySplit sep s = [s]
  | [], _ => rfl
  | c :: rest, hfree => by
    rw [pySplit, if_neg (hfree c (by simp)),
      pySplit_sep_free sep rest (fun c hc => hfree c (by simp [hc]))]

/-- The `_id` loop invariant: once the accumulator is nonempty, each further
segment appends a dash and a fresh hex string of the segment's length, so the
dash-split lengths of the result are those of the accumulator followed by the
segment lengths. -/
theorem idLoop_split : ∀ (parts : List Str) (acc : Str) (st : RState),
    acc ≠ [] →
    (pySplit '-' (idLoop parts acc st).1).map List.length =
      (pySplit '-' acc).map List.length ++ parts.map List.length
  | [], acc, st, _ => by simp [idLoop]
  | p :: rest, acc, st, hacc => by
    rw [idLoop, if_pos hacc]
    have hfree : ∀ c ∈ (choices hexLower p.length st).1, c ≠ '-' := by
      intro c hc heq
      have := choices_mem hexLower p.length st (by decide) c hc
      rw [heq] at this
      exact absurd this (by decide)
    have hacc' : acc ++ '-' :: (choices hexLower p.length st).1 ≠ [] := by
      simp
    rw [idLoop_split rest _ _ hacc', pySplit_append_sep,
      pySplit_sep_free '-' _ hfree]
    simp [choices_length]

/-- Claim C2 (amended): a string value containing `-` whose first
`-`-segment is nonempty, freshly substituted under a key hint selecting the
ID branch (containing `_id` and matching no earlier branch), receives a
substitute with the same number of `-`-separated segments, each of the same
length as the corresponding original segment.  (When the first segment is
empty the loop collapses leading segments; see the counterexample.) -/
theorem claim_C2_theorem (s : Str) (key : Str) (st : RState)
    (hflag : st.RANDOMIZE = true)
    (hfresh : (dictGet st.RANDOMDATA (.jstr s)).getD [] = [])
    (hdash : '-' ∈ s)
    (hhead : s.head? ≠ some '-')
    (hsn : strIn (lc "_sn") key = false) (hsneq : key ≠ lc "sn")
    (hbt : strIn (lc "bt_ble_") key = false)
    (hid : strIn (lc "_id") key = true)
    (hdev : key ≠ lc "device_name") :
    ∃ r st', randomize (.jstr s) key st = .ok (.jstr r, st') ∧
      (pySplit '-' r).map List.length = (pySplit '-' s).map List.length := by
  obtain ⟨c, s', rfl⟩ : ∃ c s', s = c :: s' := by
    cases s with
    | nil => simp at hdash
    | cons c s' => exact ⟨c, s', rfl⟩
  have hc : c ≠ '-' := by
    intro heq
    rw [heq] at hhead
    simp at hhead
  have htruthy : truthy (JVal.jstr (c :: s')) = true := by simp [truthy]
  rw [randomize, if_neg (by simp [hflag]), if_neg (by simp [hashable]),
    if_pos ⟨hfresh, htruthy, hdev⟩, genValue, if_neg (by simp [hsn, hsneq]),
    if_neg (by simp [hbt]), if_pos (by simp [hid]), idBranch]
  have hsplit : ∃ t ts, pySplit '-' (c :: s') = (c :: t) :: ts := by
    rw [pySplit, if_neg hc]
    cases hsp : pySplit '-' s' with
    | nil => exact absurd hsp (pySplit_ne_nil '-' s')
    | cons t ts => exact ⟨t, ts, rfl⟩
  obtain ⟨t, ts, hsp⟩ := hsplit
  have hmsr : (pySplit '-' (idLoop (pySplit '-' (c :: s')) [] st).1).map List.length =
      (pySplit '-' (c :: s')).map List.length := by
    rw [hsp, idLoop]
    rw [if_neg (by simp)]
    have hne : (choices hexLower (c :: t).length st).1 ≠ [] := by
      intro heq
      have := choices_length hexLower (c :: t).length st
      rw [heq] at this
      simp at this
    have hfree : ∀ ch ∈ (choices hexLower (c :: t).length st).1, ch ≠ '-' := by
      intro ch hch heq
      have := choices_mem hexLower (c :: t).length st (by decide) ch hch
      rw [heq] at this
      exact absurd this (by decide)
    rw [idLoop_split ts _ _ hne, pySplit_sep_free '-' _ hfree]
    simp [choices_length]
  have hrne : (idLoop (pySplit '-' (c :: s')) [] st).1 ≠ [] := by
    intro heq
    rw [heq] at hmsr
    rw [hsp] at hmsr
    simp [pySplit] at hmsr
  refine ⟨(idLoop (pySplit '-' (c :: s')) [] st).1,
    RState.mk st.RANDOMIZE
      (dictUpdate st.RANDOMDATA (.jstr (c :: s'))
        (idLoop (pySplit '-' (c :: s')) [] st).1)
      st.rng (idLoop (pySplit '-' (c :: s')) [] st).2.pos, ?_, hmsr⟩
  rw [if_neg hrne]

/-- Claim C2, counterexample to the claim as stated: the fresh value `"-a"`
under key `"site_id"` has two `-`-segments (lengths 0 and 1), but its
substitute is a single hex character — the empty leading segment collapses.
-/
theorem claim_C2_counterexample :
    randomize (.jstr (lc "-a")) (lc "site_id") ⟨true, [], fun _ => 0, 0⟩ =
      .ok (.jstr ['0'], ⟨true, [(.jstr (lc "-a"), ['0'])], fun _ => 0, 1⟩) ∧
    (pySplit '-' ['0']).map List.length ≠ (pySplit '-' (lc "-a")).map List.length :=
  ⟨rfl, by decide⟩

/-- Claim C2, witness: the amended theorem applied to `"ab-c"` under
`"site_id"`. -/
theorem claim_C2_witness :
    ∃ r st', randomize (.jstr (lc "ab-c")) (lc "site_id") ⟨true, [], fun _ => 0, 0⟩ =
      .ok (.jstr r, st') ∧
      (pySplit '-' r).map List.length = (pySplit '-' (lc "ab-c")).map List.length :=
  claim_C2_theorem (lc "ab-c") (lc "site_id") _ rfl (by decide) (by decide)
    (by decide) (by decide) (by decide) (by decide) (by decide) (by decide)

/-! ## Claim C5: Bluetooth-address consistency -/

theorem mask_colon_free : ∀ p : Str, (∀ c ∈ p, c ≠ ':') →
    p.map (fun c => c == ':') = List.replicate p.length false
  | [], _ => rfl
  | c :: p', hfree => by
    rw [List.map_cons, List.length_cons, List.replicate_succ,
      mask_colon_free p' (fun c hc => hfree c (by simp [hc]))]
    have : (c == ':') = false := by
      simp only [beq_eq_false_iff_ne]
      exact hfree c (by simp)
    rw [this]

theorem joinSep_mask_congr : ∀ ps qs : List Str,
    ps.map List.length = qs.map List.length →
    (∀ p ∈ ps, ∀ c ∈ p, c ≠ ':') → (∀ q ∈ qs, ∀ c ∈ q, c ≠ ':') →
    (joinSep ':' ps).map (fun c => c == ':') =
      (joinSep ':' qs).map (fun c => c == ':')
  | [], [], _, _, _ => rfl
  | [], _ :: _, h, _, _ => by simp at h
  | _ :: _, [], h, _, _ => by simp at h
  | [x], [y], h, hp, hq => by
    simp only [List.map_cons, List.map_nil, List.cons.injEq] at h
    rw [joinSep, joinSep, mask_colon_free x (hp x (by simp)),
      mask_colon_free y (hq y (by simp)), h.1]
  | [x], y :: y' :: ys, h, _, _ => by simp at h
  | x :: x' :: xs, [y], h, _, _ => by simp at h
  | x :: x' :: xs, y :: y' :: ys, h, hp, hq => by
    simp only [List.map_cons, List.cons.injEq] at h
    rw [joinSep, joinSep, List.map_append, List.map_append,
      mask_colon_free x (hp x (by simp)), mask_colon_free y (hq y (by simp)), h.1,
      List.map_cons, List.map_cons]
    have hrec := joinSep_mask_congr (x' :: xs) (y' :: ys)
      (by simp only [List.map_cons]; rw [h.2.1]; exact congrArg _ h.2.2)
      (fun p hp' c hc => hp p (by simp [List.mem_cons] at hp' ⊢; tauto) c hc)
      (fun q hq' c hc => hq q (by simp [List.mem_cons] at hq' ⊢; tauto) c hc)
    rw [hrec]

theorem filter_colon_joinSep : ∀ ps : List Str, (∀ p ∈ ps, ∀ c ∈ p, c ≠ ':') →
    (joinSep ':' ps).filter (fun c => c ≠ ':') = ps.flatten
  | [], _ => rfl
  | [x], hps => by
    rw [joinSep]
    simp only [List.flatten, List.append_nil]
    refine List.filter_eq_self.mpr ?_
    intro c hc
    simpa using hps x (by simp) c hc
  | x :: x' :: xs, hps => by
    rw [joinSep, List.filter_append]
    have hx : x.filter (fun c => c ≠ ':') = x := by
      refine List.filter_eq_self.mpr ?_
      intro c hc
      simpa using hps x (by simp) c hc
    have hrest := filter_colon_joinSep (x' :: xs)
      (fun p hp' c hc => hps p (by simp [List.mem_cons] at hp' ⊢; tauto) c hc)
    have hstep : List.filter (fun c => decide (c ≠ ':')) (':' :: joinSep ':' (x' :: xs)) =
        List.filter (fun c => decide (c ≠ ':')) (joinSep ':' (x' :: xs)) := by
      simp
    rw [hx, hstep, hrest]
    simp [List.flatten]

theorem pairsOf_flatten_eq : ∀ groups : List Str,
    (∀ g ∈ groups, g.length = 2) → pairsOf groups.flatten = groups
  | [], _ => rfl
  | g :: gs, hlen => by
    obtain ⟨a, b, rfl⟩ : ∃ a b, g = [a, b] := by
      have h2 := hlen g (by simp)
      cases g with
      | nil => simp at h2
      | cons a g' =>
        cases g' with
        | nil => simp at h2
        | cons b g'' =>
          cases g'' with
          | nil => exact ⟨a, b, rfl⟩
          | cons _ _ => simp at h2
    simp only [List.flatten_cons, List.cons_append, List.nil_append]
    rw [pairsOf, pairsOf_flatten_eq gs (fun g hg => hlen g (by simp [hg]))]

theorem pairsOf_map_length : ∀ (n : Nat) (r : Str), r.length = 2 * n →
    (pairsOf r).map List.length = List.replicate n 2
  | 0, r, h => by
    have : r = [] := List.length_eq_zero.mp (by omega)
    subst this
    rfl
  | n + 1, r, h => by
    obtain ⟨a, b, rest, rfl⟩ : ∃ a b rest, r = a :: b :: rest := by
      cases r with
      | nil => simp at h
      | cons a r' =>
        cases r' with
        | nil => simp at h; omega
        | cons b rest => exact ⟨a, b, rest, rfl⟩
    rw [pairsOf, List.map_cons, pairsOf_map_length n rest (by simp at h; omega)]
    rfl

theorem pairsOf_flatten_self : ∀ (n : Nat) (r : Str), r.length = 2 * n →
    (pairsOf r).flatten = r
  | 0, r, h => by
    have : r = [] := List.length_eq_zero.mp (by omega)
    subst this
    rfl
  | n + 1, r, h => by
    obtain ⟨a, b, rest, rfl⟩ : ∃ a b rest, r = a :: b :: rest := by
      cases r with
      | nil => simp at h
      | cons a r' =>
        cases r' with
        | nil => simp at h; omega
        | cons b rest => exact ⟨a, b, rest, rfl⟩
    rw [pairsOf, List.flatten_cons, pairsOf_flatten_self n rest (by simp at h; omega)]
    rfl

theorem pairsOf_mem_sub : ∀ (r : Str) (p : Str), p ∈ pairsOf r → ∀ c ∈ p, c ∈ r
  | [], p, hp => by simp [pairsOf] at hp
  | [a], p, hp => by simp [pairsOf] at hp
  | a :: b :: rest, p, hp => by
    rw [pairsOf] at hp
    rcases List.mem_cons.mp hp with rfl | hm
    · intro c hc
      rcases List.mem_cons.mp hc with rfl | hc'
      · simp
      · rcases List.mem_singleton.mp hc' with rfl
        simp
    · intro c hc
      have := pairsOf_mem_sub rest p hm c hc
      simp [this]

theorem flatten_length_two : ∀ groups : List Str,
    (∀ g ∈ groups, g.length = 2) → groups.flatten.length = 2 * groups.length
  | [], _ => rfl
  | g :: gs, hlen => by
    rw [List.flatten_cons, List.length_append,
      flatten_length_two gs (fun g hg => hlen g (by simp [hg])), hlen g (by simp)]
    simp
    omega

theorem map_length_replicate_two : ∀ groups : List Str,
    (∀ g ∈ groups, g.length = 2) →
    groups.map List.length = List.replicate groups.length 2
  | [], _ => rfl
  | g :: gs, hlen => by
    rw [List.map_cons, hlen g (by simp), List.length_cons, List.replicate_succ,
      map_length_replicate_two gs (fun g hg => hlen g (by simp [hg]))]

theorem joinSep_colon_mem : ∀ ps : List Str, 2 ≤ ps.length → ':' ∈ joinSep ':' ps
  | [], h => by simp at h
  | [x], h => by simp at h
  | x :: y :: xs, _ => by
    rw [joinSep]
    simp


theorem joinSep_cons_append (p : Str) (ps : List Str) :
    ∃ u, joinSep ':' (p :: ps) = p ++ u := by
  cases ps with
  | nil => exact ⟨[], by simp [joinSep]⟩
  | cons q qs => exact ⟨':' :: joinSep ':' (q :: qs), rfl⟩

/-- Claim C5 (amended): for a Bluetooth-address value that is a colon-join of
two-character colon-free groups (at least two groups), freshly substituted
together with its colon-stripped form — in either order of first occurrence —
the two substitutes differ only by the presence of colons at the same
positions as in the respective inputs: the delimited substitute's colon mask
equals the delimited input's colon mask, the stripped substitute is exactly
the delimited substitute with colons removed, and the stripped substitute is
colon-free.  (For colons at positions not delimiting two-character groups the
pairwise regrouping drops or moves characters; see the counterexample.) -/
theorem claim_C5_theorem (groups : List Str) (k₁ k₂ : Str) (st : RState)
    (hflag : st.RANDOMIZE = true)
    (hglen : ∀ g ∈ groups, g.length = 2)
    (hgcol : ∀ g ∈ groups, ∀ c ∈ g, c ≠ ':')
    (hn : 2 ≤ groups.length)
    (hfs : (dictGet st.RANDOMDATA (.jstr (joinSep ':' groups))).getD [] = [])
    (hft : (dictGet st.RANDOMDATA (.jstr groups.flatten)).getD [] = [])
    (hbt₁ : strIn (lc "bt_ble_") k₁ = true) (hsn₁ : strIn (lc "_sn") k₁ = false)
    (hsneq₁ : k₁ ≠ lc "sn") (hdev₁ : k₁ ≠ lc "device_name")
    (hbt₂ : strIn (lc "bt_ble_") k₂ = true) (hsn₂ : strIn (lc "_sn") k₂ = false)
    (hsneq₂ : k₂ ≠ lc "sn") (hdev₂ : k₂ ≠ lc "device_name") :
    (∀ r₁ st₁ r₂ st₂,
      randomize (.jstr (joinSep ':' groups)) k₁ st = .ok (.jstr r₁, st₁) →
      randomize (.jstr groups.flatten) k₂ st₁ = .ok (.jstr r₂, st₂) →
      r₁.map (fun c => c == ':') = (joinSep ':' groups).map (fun c => c == ':') ∧
      r₂ = r₁.filter (fun c => c ≠ ':') ∧ ':' ∉ r₂) ∧
    (∀ r₂ st₁ r₁ st₂,
      randomize (.jstr groups.flatten) k₂ st = .ok (.jstr r₂, st₁) →
      randomize (.jstr (joinSep ':' groups)) k₁ st₁ = .ok (.jstr r₁, st₂) →
      r₁.map (fun c => c == ':') = (joinSep ':' groups).map (fun c => c == ':') ∧
      r₂ = r₁.filter (fun c => c ≠ ':') ∧ ':' ∉ r₂) := by
  have hcolS : ':' ∈ joinSep ':' groups := joinSep_colon_mem groups hn
  have hcolT : ':' ∉ groups.flatten := by
    intro hmem
    rcases List.mem_flatten.mp hmem with ⟨g, hg, hcg⟩
    exact hgcol g hg ':' hcg rfl
  have hne_st : (JVal.jstr (joinSep ':' groups)) ≠ (JVal.jstr groups.flatten) := by
    intro heq
    injection heq with heq'
    rw [heq'] at hcolS
    exact hcolT hcolS
  have hlenT : groups.flatten.length = 2 * groups.length := flatten_length_two groups hglen
  have htruthyS : truthy (JVal.jstr (joinSep ':' groups)) = true := by
    simp only [truthy, ne_eq, decide_eq_true_eq]
    intro heq
    rw [heq] at hcolS
    simp at hcolS
  have htruthyT : truthy (JVal.jstr groups.flatten) = true := by
    simp only [truthy, ne_eq, decide_eq_true_eq]
    intro heq
    rw [heq] at hlenT
    rw [List.length_nil] at hlenT
    omega
  have hbtTempS : btTemp (joinSep ':' groups) = groups.flatten :=
    filter_colon_joinSep groups hgcol
  have hbtTempT : btTemp groups.flatten = groups.flatten := by
    rw [btTemp]
    refine List.filter_eq_self.mpr ?_
    intro c hc
    simp only [decide_eq_true_eq]
    intro heq
    rw [heq] at hc
    exact hcolT hc
  have hRlen : (choices hexUpper groups.flatten.length st).1.length =
      2 * groups.length := by rw [choices_length, hlenT]
  have hRcol : ':' ∉ (choices hexUpper groups.flatten.length st).1 := by
    intro hmem
    have := choices_mem hexUpper groups.flatten.length st (by decide) ':' hmem
    exact absurd this (by decide)
  have hRne : (choices hexUpper groups.flatten.length st).1 ≠ [] := by
    intro heq
    rw [heq] at hRlen
    rw [List.length_nil] at hRlen
    omega
  have hRchunks : ∀ p ∈ pairsOf (choices hexUpper groups.flatten.length st).1,
      ∀ c ∈ p, c ≠ ':' := by
    intro p hp c hc heq
    have := pairsOf_mem_sub _ p hp c hc
    rw [heq] at this
    exact hRcol this
  have hRmask : (pairsOf (choices hexUpper groups.flatten.length st).1).map List.length =
      groups.map List.length := by
    rw [pairsOf_map_length groups.length _ hRlen, map_length_replicate_two groups hglen]
  have hregroup_ne : regroup (choices hexUpper groups.flatten.length st).1 ≠ [] := by
    rw [regroup]
    cases hpc : pairsOf (choices hexUpper groups.flatten.length st).1 with
    | nil =>
      rw [hpc] at hRmask
      cases hgr : groups with
      | nil => rw [hgr] at hn; simp at hn
      | cons g gs => rw [hgr] at hRmask; simp at hRmask
    | cons p ps =>
      obtain ⟨u, hu⟩ := joinSep_cons_append p ps
      rw [hu]
      have hp2 : p.length = 2 := by
        have hmem : p.length ∈ (pairsOf (choices hexUpper groups.flatten.length st).1).map
            List.length := by rw [hpc]; simp
        rw [pairsOf_map_length groups.length _ hRlen] at hmem
        exact List.eq_of_mem_replicate hmem
      intro heq
      have := congrArg List.length heq
      simp [hp2] at this
  have hmaskEq : (regroup (choices hexUpper groups.flatten.length st).1).map
      (fun c => c == ':') = (joinSep ':' groups).map (fun c => c == ':') := by
    rw [regroup]
    exact joinSep_mask_congr _ groups hRmask hRchunks hgcol
  have hfilterEq : (regroup (choices hexUpper groups.flatten.length st).1).filter
      (fun c => c ≠ ':') = (choices hexUpper groups.flatten.length st).1 := by
    rw [regroup, filter_colon_joinSep _ hRchunks,
      pairsOf_flatten_self groups.length _ hRlen]
  have hbtRS : btR (joinSep ':' groups) st = choices hexUpper groups.flatten.length st := by
    rw [btR, hbtTempS, if_pos hft]
  have hbtRT : btR groups.flatten st = choices hexUpper groups.flatten.length st := by
    rw [btR, hbtTempT, if_pos hft]
  constructor
  · -- scenario A: the colon-delimited value is substituted first
    intro r₁ st₁v r₂ st₂v hA1 hA2
    have hrun1 : randomize (.jstr (joinSep ':' groups)) k₁ st =
        .ok (.jstr (regroup (choices hexUpper groups.flatten.length st).1),
          RState.mk st.RANDOMIZE
            (dictUpdate
              (dictUpdate st.RANDOMDATA (.jstr groups.flatten)
                (choices hexUpper groups.flatten.length st).1)
              (.jstr (joinSep ':' groups))
              (regroup (choices hexUpper groups.flatten.length st).1))
            st.rng (choices hexUpper groups.flatten.length st).2.pos) := by
      rw [randomize, if_neg (by simp [hflag]), if_neg (by simp [hashable]),
        if_pos ⟨hfs, htruthyS, hdev₁⟩, genValue, if_neg (by simp [hsn₁, hsneq₁]),
        if_pos (by simp [hbt₁]), btBranch, if_pos hcolS, hbtRS, hbtTempS,
        if_neg hregroup_ne]
    rw [hrun1] at hA1
    simp only [Except.ok.injEq, Prod.mk.injEq, JVal.jstr.injEq] at hA1
    obtain ⟨hr₁, hst₁⟩ := hA1
    subst hst₁
    subst hr₁
    have hlook : dictGet
        (dictUpdate
          (dictUpdate st.RANDOMDATA (.jstr groups.flatten)
            (choices hexUpper groups.flatten.length st).1)
          (.jstr (joinSep ':' groups))
          (regroup (choices hexUpper groups.flatten.length st).1))
        (.jstr groups.flatten) =
        some (choices hexUpper groups.flatten.length st).1 := by
      rw [dictGet_update_other _ _ _ _ (Ne.symm hne_st), dictGet_update_self]
    rw [randomize] at hA2
    rw [if_neg (by simp [hflag]), if_neg (by simp [hashable])] at hA2
    rw [if_neg (by
      rintro ⟨h1, _, _⟩
      rw [hlook] at h1
      rw [Option.getD_some] at h1
      exact hRne h1)] at hA2
    rw [hlook] at hA2
    simp only [Option.getD_some, if_neg hRne, Except.ok.injEq, Prod.mk.injEq,
      JVal.jstr.injEq] at hA2
    obtain ⟨hr₂, _⟩ := hA2
    subst hr₂
    exact ⟨hmaskEq, hfilterEq.symm, hRcol⟩
  · -- scenario B: the colon-stripped value is substituted first
    intro r₂ st₁v r₁ st₂v hB1 hB2
    have hrun1 : randomize (.jstr groups.flatten) k₂ st =
        .ok (.jstr (choices hexUpper groups.flatten.length st).1,
          RState.mk st.RANDOMIZE
            (dictUpdate st.RANDOMDATA (.jstr groups.flatten)
              (choices hexUpper groups.flatten.length st).1)
            st.rng (choices hexUpper groups.flatten.length st).2.pos) := by
      rw [randomize, if_neg (by simp [hflag]), if_neg (by simp [hashable]),
        if_pos ⟨hft, htruthyT, hdev₂⟩, genValue, if_neg (by simp [hsn₂, hsneq₂]),
        if_pos (by simp [hbt₂]), btBranch, if_neg hcolT, hbtRT, if_neg hRne]
    rw [hrun1] at hB1
    simp only [Except.ok.injEq, Prod.mk.injEq, JVal.jstr.injEq] at hB1
    obtain ⟨hr₂, hst₁⟩ := hB1
    subst hst₁
    subst hr₂
    have hlookS : dictGet
        (dictUpdate st.RANDOMDATA (.jstr groups.flatten)
          (choices hexUpper groups.flatten.length st).1)
        (.jstr (joinSep ':' groups)) =
        dictGet st.RANDOMDATA (.jstr (joinSep ':' groups)) :=
      dictGet_update_other _ _ _ _ hne_st
    have hlookT : dictGet
        (dictUpdate st.RANDOMDATA (.jstr groups.flatten)
          (choices hexUpper groups.flatten.length st).1)
        (.jstr groups.flatten) =
        some (choices hexUpper groups.flatten.length st).1 :=
      dictGet_update_self _ _ _
    have hbtRB : btR (joinSep ':' groups)
        (RState.mk st.RANDOMIZE
          (dictUpdate st.RANDOMDATA (.jstr groups.flatten)
            (choices hexUpper groups.flatten.length st).1)
          st.rng (choices hexUpper groups.flatten.length st).2.pos) =
        ((choices hexUpper groups.flatten.length st).1,
          RState.mk st.RANDOMIZE
            (dictUpdate st.RANDOMDATA (.jstr groups.flatten)
              (choices hexUpper groups.flatten.length st).1)
            st.rng (choices hexUpper groups.flatten.length st).2.pos) := by
      rw [btR, hbtTempS]
      show (if (dictGet (dictUpdate st.RANDOMDATA (.jstr groups.flatten)
          (choices hexUpper groups.flatten.length st).1)
          (.jstr groups.flatten)).getD [] = [] then _ else _) = _
      rw [hlookT]
      simp only [Option.getD_some, if_neg hRne]
    rw [randomize] at hB2
    rw [if_neg (by simp [hflag]), if_neg (by simp [hashable])] at hB2
    rw [if_pos (by
      refine ⟨?_, htruthyS, hdev₁⟩
      show (dictGet (dictUpdate st.RANDOMDATA (.jstr groups.flatten)
        (choices hexUpper groups.flatten.length st).1)
        (.jstr (joinSep ':' groups))).getD [] = []
      rw [hlookS]
      exact hfs)] at hB2
    rw [genValue, if_neg (by simp [hsn₁, hsneq₁]), if_pos (by simp [hbt₁]),
      btBranch, if_pos hcolS, hbtRB, hbtTempS, if_neg hregroup_ne] at hB2
    simp only [Except.ok.injEq, Prod.mk.injEq, JVal.jstr.injEq] at hB2
    obtain ⟨hr₁, _⟩ := hB2
    subst hr₁
    exact ⟨hmaskEq, hfilterEq.symm, hRcol⟩

/-- Claim C5, counterexample to the claim as stated: the value `"A:BC"` has
its colon after one character; its substitute is `"00"` (pairwise regrouping
drops the odd character and places no colon), while the colon-stripped
`"ABC"` maps to `"000"` — the two substitutes do not differ only by colons,
and the delimited substitute's colons are not at the input's positions. -/
theorem claim_C5_counterexample :
    randomize (.jstr (lc "A:BC")) (lc "bt_ble_mac") ⟨true, [], fun _ => 0, 0⟩ =
      .ok (.jstr (lc "00"),
        ⟨true, [(.jstr (lc "ABC"), lc "000"), (.jstr (lc "A:BC"), lc "00")],
         fun _ => 0, 3⟩) ∧
    randomize (.jstr (lc "ABC")) (lc "bt_ble_mac")
        ⟨true, [(.jstr (lc "ABC"), lc "000"), (.jstr (lc "A:BC"), lc "00")],
         fun _ => 0, 3⟩ =
      .ok (.jstr (lc "000"),
        ⟨true, [(.jstr (lc "ABC"), lc "000"), (.jstr (lc "A:BC"), lc "00")],
         fun _ => 0, 3⟩) ∧
    lc "000" ≠ (lc "00").filter (fun c => c ≠ ':') ∧
    (lc "00").map (fun c => c == ':') ≠ (lc "A:BC").map (fun c => c == ':') :=
  ⟨rfl, rfl, by decide, by decide⟩

/-- Claim C5, witness: the amended theorem applied to the two-group address
`"AB:CD"` and its stripped form `"ABCD"` in a fresh run. -/
theorem claim_C5_witness :
    (lc "00:00").map (fun c => c == ':') =
      (joinSep ':' [['A', 'B'], ['C', 'D']]).map (fun c => c == ':') ∧
    lc "0000" = (lc "00:00").filter (fun c => c ≠ ':') ∧ ':' ∉ lc "0000" :=
  ( claim_C5_theorem [['A', 'B'], ['C', 'D']] (lc "bt_ble_mac") (lc "bt_ble_mac")
      ⟨true, [], fun _ => 0, 0⟩ rfl (by decide) (by decide) (by decide)
      (by decide) (by decide) (by decide) (by decide) (by decide) (by decide)
      (by decide) (by decide) (by decide) (by decide)).1
    (lc "00:00")
    ⟨true, [(.jstr (lc "ABCD"), lc "0000"), (.jstr (lc "AB:CD"), lc "00:00")],
     fun _ => 0, 4⟩
    (lc "0000")
    ⟨true, [(.jstr (lc "ABCD"), lc "0000"), (.jstr (lc "AB:CD"), lc "00:00")],
     fun _ => 0, 4⟩
    rfl rfl

/-! ## Claim C3: failure tolerance of the sanitization traversal -/

theorem strKeys_update {t : List (JVal × Str)} {k : JVal} {v : Str}
    (hkeys : StrKeys t) (hk : ∃ s, k = .jstr s) : StrKeys (dictUpdate t k v) := by
  intro e he
  rcases mem_dictUpdate he with rfl | he'
  · exact hk
  · exact hkeys e he'

/-- `randomize` never raises on a string or falsy hashable value when the
table keys are all strings, and it keeps the table keys all strings and the
`RANDOMIZE` flag unchanged. -/
theorem randomize_safe {v : JVal} {k : Str} {st : RState}
    (hkeys : StrKeys st.RANDOMDATA)
    (hv : (∃ s, v = JVal.jstr s) ∨ truthy v = false) (hh : hashable v = true) :
    ∃ r st', randomize v k st = .ok (r, st') ∧ StrKeys st'.RANDOMDATA ∧
      st'.RANDOMIZE = st.RANDOMIZE := by
  rw [randomize]
  split
  · exact ⟨_, _, rfl, hkeys, rfl⟩
  · rw [if_neg (by simp [hh])]
    split
    · next hcond =>
      obtain ⟨hrs, htr, hkey⟩ := hcond
      obtain ⟨s, rfl⟩ : ∃ s, v = JVal.jstr s := by
        rcases hv with h | h
        · exact h
        · rw [h] at htr; simp at htr
      rw [genValue]
      split
      · exact ⟨_, _, rfl, strKeys_update hkeys ⟨s, rfl⟩, rfl⟩
      · split
        · rw [btBranch]
          split
          · exact ⟨_, _, rfl,
              strKeys_update (strKeys_update hkeys ⟨btTemp s, rfl⟩) ⟨s, rfl⟩, rfl⟩
          · exact ⟨_, _, rfl, strKeys_update hkeys ⟨s, rfl⟩, rfl⟩
        · split
          · exact ⟨_, _, rfl, strKeys_update hkeys ⟨s, rfl⟩, rfl⟩
          · split
            · exact ⟨_, _, rfl, strKeys_update hkeys ⟨s, rfl⟩, rfl⟩
            · split
              · rw [blobBranch, blobFold_eq_spec hkeys]
                exact ⟨_, _, rfl, hkeys, rfl⟩
              · exact ⟨_, _, rfl, strKeys_update hkeys ⟨s, rfl⟩, rfl⟩
    · exact ⟨_, _, rfl, hkeys, rfl⟩

mutual
theorem checkKeys_safe : ∀ (d : JVal) (st : RState), safeDoc d = true →
    StrKeys st.RANDOMDATA →
    ∃ d' st', checkKeys d st = .ok (d', st') ∧ StrKeys st'.RANDOMDATA
  | .jnull, _, hsafe, _ => by simp [safeDoc] at hsafe
  | .jbool b, st, _, hkeys => ⟨_, _, rfl, hkeys⟩
  | .jint n, st, _, hkeys => ⟨_, _, rfl, hkeys⟩
  | .jstr s, st, _, hkeys => ⟨_, _, rfl, hkeys⟩
  | .jarr _, _, hsafe, _ => by simp [safeDoc] at hsafe
  | .jobj fs, st, hsafe, hkeys => by
    obtain ⟨fs', st', hrun, hk⟩ :=
      checkFields_safe fs st (by simpa [safeDoc] using hsafe) hkeys
    exact ⟨.jobj fs', st', by rw [checkKeys, hrun], hk⟩

theorem checkFields_safe : ∀ (fs : List (Str × JVal)) (st : RState),
    safeFields fs = true → StrKeys st.RANDOMDATA →
    ∃ fs' st', checkFields fs st = .ok (fs', st') ∧ StrKeys st'.RANDOMDATA
  | [], st, _, hkeys => ⟨[], st, rfl, hkeys⟩
  | (k, v) :: rest, st, hsafe, hkeys => by
    rw [safeFields] at hsafe
    simp only [Bool.and_eq_true] at hsafe
    have hsub := hsafe.1.1
    have hsens := hsafe.1.2
    have hrest := hsafe.2
    have step1 : ∃ v₂ st₂, checkSub v st = .ok (v₂, st₂) ∧
        StrKeys st₂.RANDOMDATA ∧
        ((∃ s, v₂ = JVal.jstr s) ∨ (truthy v₂ = false ∧ hashable v₂ = true) ∨
          sensitive k = false) := by
      cases v with
      | jobj fs =>
        rw [safeSub] at hsub
        have hns : sensitive k = false := by simpa [safeSens] using hsens
        obtain ⟨fs', st', hrun, hk⟩ := checkFields_safe fs st hsub hkeys
        exact ⟨.jobj fs', st', by rw [checkSub, hrun], hk, Or.inr (Or.inr hns)⟩
      | jarr xs =>
        rw [safeSub] at hsub
        have hns : sensitive k = false := by simpa [safeSens] using hsens
        obtain ⟨xs', st', hrun, hk⟩ := checkList_safe xs st hsub hkeys
        exact ⟨.jarr xs', st', by rw [checkSub, hrun], hk, Or.inr (Or.inr hns)⟩
      | jnull => exact ⟨_, _, rfl, hkeys, Or.inr (Or.inl ⟨rfl, rfl⟩)⟩
      | jbool b =>
        refine ⟨_, _, rfl, hkeys, ?_⟩
        rcases (by simpa [safeSens] using hsens : sensitive k = false ∨ b = false)
          with hns | hb
        · exact Or.inr (Or.inr hns)
        · exact Or.inr (Or.inl ⟨by simp [truthy, hb], rfl⟩)
      | jint n =>
        refine ⟨_, _, rfl, hkeys, ?_⟩
        rcases (by simpa [safeSens] using hsens : sensitive k = false ∨ n = 0)
          with hns | hn0
        · exact Or.inr (Or.inr hns)
        · exact Or.inr (Or.inl ⟨by simp [truthy, hn0], rfl⟩)
      | jstr s => exact ⟨_, _, rfl, hkeys, Or.inl ⟨s, rfl⟩⟩
    obtain ⟨v₂, st₂, hrun1, hk₂, hv₂⟩ := step1
    have step2 : ∃ v₃ st₃,
        (if sensitive k then randomize v₂ k st₂ else .ok (v₂, st₂)) = .ok (v₃, st₃) ∧
        StrKeys st₃.RANDOMDATA := by
      by_cases hs : sensitive k
      · rw [if_pos hs]
        have hv₂' : (∃ s, v₂ = JVal.jstr s) ∨
            (truthy v₂ = false ∧ hashable v₂ = true) := by
          rcases hv₂ with h | h | h
          · exact Or.inl h
          · exact Or.inr h
          · rw [h] at hs; simp at hs
        have hh : hashable v₂ = true := by
          rcases hv₂' with ⟨s, rfl⟩ | h
          · rfl
          · exact h.2
        have hv₂'' : (∃ s, v₂ = JVal.jstr s) ∨ truthy v₂ = false := by
          rcases hv₂' with h | h
          · exact Or.inl h
          · exact Or.inr h.1
        obtain ⟨r, st₃, hrun, hk₃, _⟩ := randomize_safe hk₂ hv₂'' hh
        exact ⟨r, st₃, hrun, hk₃⟩
      · exact ⟨v₂, st₂, by rw [if_neg hs], hk₂⟩
    obtain ⟨v₃, st₃, hrun2, hk₃⟩ := step2
    obtain ⟨rest', st₄, hrun3, hk₄⟩ := checkFields_safe rest st₃ hrest hk₃
    refine ⟨(k, v₃) :: rest', st₄, ?_, hk₄⟩
    rw [checkFields, hrun1]
    show (match (if sensitive k then randomize v₂ k st₂ else .ok (v₂, st₂)) with
          | Except.error e => Except.error e
          | Except.ok (v₃, st₃) =>
            match checkFields rest st₃ with
            | Except.ok (rest', st₄) => Except.ok ((k, v₃) :: rest', st₄)
            | Except.error e => Except.error e) = _
    rw [hrun2]
    show (match checkFields rest st₃ with
          | Except.ok (rest', st₄) => Except.ok ((k, v₃) :: rest', st₄)
          | Except.error e => Except.error e) = _
    rw [hrun3]

theorem checkList_safe : ∀ (xs : List JVal) (st : RState),
    safeElems xs = true → StrKeys st.RANDOMDATA →
    ∃ xs' st', checkList xs st = .ok (xs', st') ∧ StrKeys st'.RANDOMDATA
  | [], st, _, hkeys => ⟨[], st, rfl, hkeys⟩
  | x :: xs, st, hsafe, hkeys => by
    rw [safeElems] at hsafe
    simp only [Bool.and_eq_true] at hsafe
    obtain ⟨h1, h2⟩ := hsafe
    have step1 : ∃ x' st₁, checkKeys x st = .ok (x', st₁) ∧
        StrKeys st₁.RANDOMDATA := by
      cases x with
      | jobj fs =>
        rw [safeElem] at h1
        obtain ⟨d', st', hrun, hk⟩ :=
          checkKeys_safe (.jobj fs) st (by simpa [safeDoc] using h1) hkeys
        exact ⟨d', st', hrun, hk⟩
      | jnull => rw [safeElem] at h1; simp at h1
      | jarr ys => rw [safeElem] at h1; simp at h1
      | jbool b => exact ⟨_, _, rfl, hkeys⟩
      | jint n => exact ⟨_, _, rfl, hkeys⟩
      | jstr s => exact ⟨_, _, rfl, hkeys⟩
    obtain ⟨x', st₁, hrun1, hk₁⟩ := step1
    obtain ⟨xs', st₂, hrun2, hk₂⟩ := checkList_safe xs st₁ h2 hk₁
    refine ⟨x' :: xs', st₂, ?_, hk₂⟩
    rw [checkList, hrun1]
    show (match checkList xs st₁ with
          | Except.ok (xs', st₂) => Except.ok (x' :: xs', st₂)
          | Except.error e => Except.error e) = _
    rw [hrun2]
end

/-- Claim C3 (amended): `check_keys` never raises on documents that are
"safe": no `None` and no list directly inside a list, and every value under a
sensitive key is a string or a falsy scalar (`None`, `0`, `False`, `""`) —
given the spec's data model that all substitution-table keys are strings.
(The claim as stated — no exception for any document, e.g. an int under an
`"sn"` key — is false; see the counterexample, which is the claim's own
example input.) -/
theorem claim_C3_theorem (d : JVal) (st : RState) (hsafe : safeDoc d = true)
    (hkeys : StrKeys st.RANDOMDATA) :
    ∃ d' st', checkKeys d st = .ok (d', st') := by
  obtain ⟨d', st', hrun, _⟩ := checkKeys_safe d st hsafe hkeys
  exact ⟨d', st', hrun⟩

/-- Claim C3, counterexample to the claim as stated: an int under the
sensitive key `"sn"` (the claim's own example of a tolerated input) raises
`TypeError` (Python's `len(5)`), aborting the traversal. -/
theorem claim_C3_counterexample :
    checkKeys (.jobj [(lc "sn", .jint 5)]) ⟨true, [], fun _ => 0, 0⟩ =
      .error "TypeError" :=
  rfl

/-- Claim C3, witness: a nested document with a string serial, a list of
objects, a null under a non-sensitive key and a falsy sensitive value is
sanitized without raising. -/
theorem claim_C3_witness :
    ∃ d' st', checkKeys (.jobj
        [(lc "device_sn", .jstr (lc "AB12")),
         (lc "x", .jarr [.jobj [(lc "a", .jint 1)], .jint 2]),
         (lc "note", .jnull),
         (lc "trace_id", .jnull)])
      ⟨true, [], fun _ => 0, 0⟩ = .ok (d', st') :=
  claim_C3_theorem _ _ (by decide) (fun e he => by simp at he)

theorem objGet_cons (k₀ : Str) (v₀ : JVal) (rest : List (Str × JVal)) (k : Str) :
    objGet ((k₀, v₀) :: rest) k = if k₀ = k then .ok v₀ else objGet rest k := by
  by_cases h : k₀ = k
  · simp [objGet, List.find?, h]
  · simp [objGet, List.find?, h]

theorem objSet_cons (k₀ : Str) (v₀ : JVal) (rest : List (Str × JVal)) (k : Str)
    (v : JVal) :
    objSet ((k₀, v₀) :: rest) k v =
      if k₀ = k then (k, v) :: rest else (k₀, v₀) :: objSet rest k v := rfl

theorem objPop_cons (k₀ : Str) (v₀ : JVal) (rest : List (Str × JVal)) (k : Str) :
    objPop ((k₀, v₀) :: rest) k =
      if k₀ = k then .ok (v₀, rest)
      else
        match objPop rest k with
        | .ok (v, restm) => .ok (v, (k₀, v₀) :: restm)
        | .error e => .error e := rfl

theorem objGet_objSet_self : ∀ (l : List (Str × JVal)) (k : Str) (v : JVal),
    objGet (objSet l k v) k = .ok v
  | [], k, v => by simp [objSet, objGet, List.find?]
  | (k₀, v₀) :: rest, k, v => by
    rw [objSet_cons]
    by_cases h : k₀ = k
    · rw [if_pos h, objGet_cons, if_pos rfl]
    · rw [if_neg h, objGet_cons, if_neg h]
      exact objGet_objSet_self rest k v

theorem objSet_objSet : ∀ (l : List (Str × JVal)) (k : Str) (v w : JVal),
    objSet (objSet l k v) k w = objSet l k w
  | [], k, v, w => by simp [objSet]
  | (k₀, v₀) :: rest, k, v, w => by
    rw [objSet_cons]
    by_cases h : k₀ = k
    · rw [if_pos h, objSet_cons, if_pos rfl, objSet_cons, if_pos h]
    · rw [if_neg h, objSet_cons, if_neg h, objSet_cons, if_neg h,
        objSet_objSet rest k v w]

theorem objSet_objGet_self : ∀ (l : List (Str × JVal)) (k : Str) (v : JVal),
    objGet l k = .ok v → objSet l k v = l
  | [], k, v, h => by simp [objGet, List.find?] at h
  | (k₀, v₀) :: rest, k, v, h => by
    rw [objGet_cons] at h
    rw [objSet_cons]
    by_cases hk : k₀ = k
    · subst hk
      rw [if_pos rfl] at h ⊢
      cases h
      rfl
    · rw [if_neg hk] at h
      rw [if_neg hk, objSet_objGet_self rest k v h]

theorem objGet_append_cons : ∀ (pre : List (Str × JVal)) (k : Str) (v : JVal)
    (rest : List (Str × JVal)), k ∉ pre.map Prod.fst →
    objGet (pre ++ (k, v) :: rest) k = .ok v
  | [], k, v, rest, _ => by rw [List.nil_append, objGet_cons, if_pos rfl]
  | (k₀, v₀) :: pre, k, v, rest, h => by
    simp only [List.map_cons, List.mem_cons, not_or] at h
    rw [List.cons_append, objGet_cons, if_neg (fun he => h.1 he.symm)]
    exact objGet_append_cons pre k v rest h.2

theorem objSet_append_cons : ∀ (pre : List (Str × JVal)) (k : Str) (v : JVal)
    (rest : List (Str × JVal)) (w : JVal), k ∉ pre.map Prod.fst →
    objSet (pre ++ (k, v) :: rest) k w = pre ++ (k, w) :: rest
  | [], k, v, rest, w, _ => by
    rw [List.nil_append, objSet_cons, if_pos rfl, List.nil_append]
  | (k₀, v₀) :: pre, k, v, rest, w, h => by
    simp only [List.map_cons, List.mem_cons, not_or] at h
    rw [List.cons_append, objSet_cons, if_neg (fun he => h.1 he.symm),
      objSet_append_cons pre k v rest w h.2, List.cons_append]

theorem objPop_append_cons : ∀ (pre : List (Str × JVal)) (k : Str) (v : JVal)
    (rest : List (Str × JVal)), k ∉ pre.map Prod.fst →
    objPop (pre ++ (k, v) :: rest) k = .ok (v, pre ++ rest)
  | [], k, v, rest, _ => by
    rw [List.nil_append, objPop_cons, if_pos rfl]
    rfl
  | (k₀, v₀) :: pre, k, v, rest, h => by
    simp only [List.map_cons, List.mem_cons, not_or] at h
    rw [List.cons_append, objPop_cons, if_neg (fun he => h.1 he.symm),
      objPop_append_cons pre k v rest h.2]
    rfl

theorem objSet_append_of_not_mem : ∀ (l : List (Str × JVal)) (k : Str) (v : JVal),
    k ∉ l.map Prod.fst → objSet l k v = l ++ [(k, v)]
  | [], _, _, _ => rfl
  | (k₀, v₀) :: rest, k, v, h => by
    simp only [List.map_cons, List.mem_cons, not_or] at h
    rw [objSet_cons, if_neg (fun he => h.1 he.symm),
      objSet_append_of_not_mem rest k v h.2, List.cons_append]

theorem renameOne_eq (tbl : List (JVal × Str)) (dcopy : List (Str × JVal))
    (key nk k : Str) (g m : List (Str × JVal))
    (hg : objGet dcopy key = .ok (.jobj g)) (hm : objGet g nk = .ok (.jobj m)) :
    renameOne tbl dcopy key nk k =
      match objPop m k with
      | .ok (v, m₁) => .ok (objSet dcopy key (.jobj (objSet g nk
          (.jobj (objSet m₁ ((dictGet tbl (.jstr k)).getD []) v)))))
      | .error e => .error e := by
  simp only [renameOne, hg, hm]
  cases hpop : objPop m k with
  | ok p =>
    obtain ⟨v, m₁⟩ := p
    rfl
  | error e => rfl

theorem renameNestedKeys_path (tbl : List (JVal × Str)) :
    ∀ (ks : List Str) (dcopy : List (Str × JVal)) (key nk : Str)
      (g m : List (Str × JVal)),
      objGet dcopy key = .ok (.jobj g) → objGet g nk = .ok (.jobj m) →
      renameNestedKeys tbl dcopy key nk ks =
        match renameLocal tbl ks m with
        | .ok mm => .ok (objSet dcopy key (.jobj (objSet g nk (.jobj mm))))
        | .error e => .error e
  | [], dcopy, key, nk, g, m, hg, hm => by
    rw [renameNestedKeys, renameLocal]
    show Except.ok dcopy =
      Except.ok (objSet dcopy key (.jobj (objSet g nk (.jobj m))))
    rw [objSet_objGet_self g nk (.jobj m) hm, objSet_objGet_self dcopy key (.jobj g) hg]
  | k :: ks, dcopy, key, nk, g, m, hg, hm => by
    rw [renameNestedKeys, renameLocal]
    by_cases hk : (dictGet tbl (.jstr k)).isSome = true
    · rw [if_pos hk, if_pos hk, renameOne_eq tbl dcopy key nk k g m hg hm]
      cases hpop : objPop m k with
      | ok p =>
        obtain ⟨v, m₁⟩ := p
        show renameNestedKeys tbl (objSet dcopy key (.jobj (objSet g nk
            (.jobj (objSet m₁ ((dictGet tbl (.jstr k)).getD []) v))))) key nk ks =
          match renameLocal tbl ks (objSet m₁ ((dictGet tbl (.jstr k)).getD []) v) with
          | .ok mm => .ok (objSet dcopy key (.jobj (objSet g nk (.jobj mm))))
          | .error e => .error e
        rw [renameNestedKeys_path tbl ks _ key nk _ _
          (objGet_objSet_self dcopy key _) (objGet_objSet_self g nk _)]
        simp only [objSet_objSet]
      | error e => rfl
    · rw [if_neg hk, if_neg hk]
      exact renameNestedKeys_path tbl ks dcopy key nk g m hg hm

theorem renameLocal_general (tbl : List (JVal × Str)) :
    ∀ (f kept b : List (Str × JVal)),
      (((kept ++ f).map Prod.fst).Nodup) →
      (∀ e ∈ f, (dictGet tbl (.jstr e.1)).isSome = true →
        keySub tbl e.1 ∉ (kept ++ f ++ b).map Prod.fst) →
      f.Pairwise (fun e em => (dictGet tbl (.jstr e.1)).isSome = true →
        (dictGet tbl (.jstr em.1)).isSome = true →
        keySub tbl e.1 ≠ keySub tbl em.1) →
      renameLocal tbl (f.map Prod.fst) (kept ++ f ++ b) =
        .ok (kept ++ f.filter (fun e => (dictGet tbl (.jstr e.1)).isNone) ++ b ++
          (f.filter (fun e => (dictGet tbl (.jstr e.1)).isSome)).map
            (fun e => (keySub tbl e.1, e.2)))
  | [], kept, b, _, _, _ => by simp [renameLocal]
  | (k, v) :: f, kept, b, h1, h2, h3 => by
    have h1' : ((kept.map Prod.fst) ++ k :: f.map Prod.fst).Nodup := by
      simpa using h1
    have hkk : k ∉ kept.map Prod.fst := fun hmem =>
      List.disjoint_of_nodup_append h1' hmem (List.mem_cons_self k _)
    rw [List.map_cons, renameLocal]
    simp only [List.append_assoc, List.cons_append]
    cases hdg : dictGet tbl (.jstr k) with
    | some s =>
      have hsub : keySub tbl k = s := by simp [keySub, hdg]
      rw [if_pos (by simp [hdg]), objPop_append_cons kept k v (f ++ b) hkk]
      have hfresh : s ∉ (kept ++ (f ++ b)).map Prod.fst := by
        have h0 := h2 (k, v) (by simp) (by simp [hdg])
        simp only [hsub] at h0
        simp only [List.map_append, List.mem_append, List.map_cons,
          List.mem_cons, not_or] at h0 ⊢
        tauto
      have h1n : ((kept ++ f).map Prod.fst).Nodup := by
        have hsl : ((kept ++ f).map Prod.fst).Sublist
            ((kept ++ (k, v) :: f).map Prod.fst) :=
          List.Sublist.map Prod.fst
            (List.Sublist.append_left (List.sublist_cons_self _ _) kept)
        exact h1.sublist hsl
      have h2n : ∀ e ∈ f, (dictGet tbl (.jstr e.1)).isSome = true →
          keySub tbl e.1 ∉ (kept ++ f ++ (b ++ [(s, v)])).map Prod.fst := by
        intro e he hs
        have h0 := h2 e (by simp [he]) hs
        have hne : keySub tbl e.1 ≠ s := by
          intro hEq
          have hpw := (List.pairwise_cons.mp h3).1 e he (by simp [hdg]) hs
          exact hpw (by simpa [hsub] using hEq.symm)
        simp only [List.map_append, List.mem_append, List.map_cons,
          List.mem_cons, not_or, List.map_nil, List.not_mem_nil,
          List.mem_singleton] at h0 ⊢
        tauto
      have h3n := (List.pairwise_cons.mp h3).2
      show renameLocal tbl (f.map Prod.fst)
          (objSet (kept ++ (f ++ b)) s v) = _
      rw [objSet_append_of_not_mem (kept ++ (f ++ b)) s v hfresh]
      have hacc : (kept ++ (f ++ b)) ++ [(s, v)] = kept ++ f ++ (b ++ [(s, v)]) := by
        simp
      rw [hacc, renameLocal_general tbl f kept (b ++ [(s, v)]) h1n h2n h3n]
      simp [List.filter_cons, hdg, hsub]
    | none =>
      rw [if_neg (by simp [hdg])]
      have h1n : (((kept ++ [(k, v)]) ++ f).map Prod.fst).Nodup := by
        simpa [List.append_assoc] using h1
      have h2n : ∀ e ∈ f, (dictGet tbl (.jstr e.1)).isSome = true →
          keySub tbl e.1 ∉ ((kept ++ [(k, v)]) ++ f ++ b).map Prod.fst := by
        intro e he hs
        have h0 := h2 e (by simp [he]) hs
        simp only [List.map_append, List.mem_append, List.map_cons,
          List.mem_cons, not_or, List.map_nil, List.not_mem_nil] at h0 ⊢
        tauto
      have h3n := (List.pairwise_cons.mp h3).2
      have hacc : kept ++ ((k, v) :: (f ++ b)) = (kept ++ [(k, v)]) ++ f ++ b := by
        simp
      rw [hacc, renameLocal_general tbl f (kept ++ [(k, v)]) b h1n h2n h3n]
      simp [List.filter_cons, hdg]

theorem renameLocal_spec (tbl : List (JVal × Str)) (m : List (Str × JVal))
    (h : dict2Hyp tbl m) :
    renameLocal tbl (m.map Prod.fst) m = .ok (renameObjSpec tbl m) := by
  obtain ⟨h1, h2, h3⟩ := h
  have hrec := renameLocal_general tbl m [] [] h1
    (by
      intro e he hs
      rw [List.nil_append, List.append_nil]
      exact h2 e he hs) h3
  simp only [List.nil_append, List.append_nil] at hrec
  rw [renameObjSpec]
  exact hrec

theorem entryFold_eq (tbl : List (JVal × Str)) (key : Str) :
    ∀ (ps pre dcopy : List (Str × JVal)),
      objGet dcopy key = .ok (.jobj (pre ++ ps)) →
      (((pre ++ ps).map Prod.fst).Nodup) →
      (∀ p ∈ ps, ∀ m, p.2 = JVal.jobj m → dict2Hyp tbl m) →
      ps.foldl (entryStep tbl key) (Except.ok dcopy) =
        .ok (objSet dcopy key (.jobj (pre ++ ps.map (fun e =>
          (e.1, renameSub tbl e.2)))))
  | [], pre, dcopy, hg, _, _ => by
    simp only [List.foldl_nil, List.map_nil]
    rw [objSet_objGet_self dcopy key _ hg]
  | (nk, pv) :: ps, pre, dcopy, hg, h1, h4 => by
    have h1' : ((pre.map Prod.fst) ++ nk :: ps.map Prod.fst).Nodup := by
      simpa using h1
    have hnk : nk ∉ pre.map Prod.fst := fun hmem =>
      List.disjoint_of_nodup_append h1' hmem (List.mem_cons_self nk _)
    rw [List.foldl_cons]
    by_cases hobj : ∃ m, pv = JVal.jobj m
    · obtain ⟨m, rfl⟩ := hobj
      have hgnk : objGet (pre ++ (nk, JVal.jobj m) :: ps) nk = .ok (.jobj m) :=
        objGet_append_cons pre nk (JVal.jobj m) ps hnk
      have hd2 := h4 (nk, JVal.jobj m) (by simp) m rfl
      have hstep : entryStep tbl key (Except.ok dcopy) (nk, JVal.jobj m) =
          .ok (objSet dcopy key (.jobj (pre ++ (nk, renameSub tbl (JVal.jobj m)) :: ps))) := by
        show renameNestedKeys tbl dcopy key nk (m.map Prod.fst) = _
        rw [renameNestedKeys_path tbl (m.map Prod.fst) dcopy key nk _ m hg hgnk,
          renameLocal_spec tbl m hd2]
        show Except.ok (objSet dcopy key (.jobj (objSet (pre ++ (nk, JVal.jobj m) :: ps)
          nk (.jobj (renameObjSpec tbl m))))) = _
        rw [objSet_append_cons pre nk (JVal.jobj m) ps (.jobj (renameObjSpec tbl m)) hnk]
        rfl
      rw [hstep]
      have hg2 : objGet (objSet dcopy key
          (.jobj (pre ++ (nk, renameSub tbl (JVal.jobj m)) :: ps))) key =
          .ok (.jobj ((pre ++ [(nk, renameSub tbl (JVal.jobj m))]) ++ ps)) := by
        rw [List.append_assoc, List.singleton_append]
        exact objGet_objSet_self dcopy key _
      have h1n : (((pre ++ [(nk, renameSub tbl (JVal.jobj m))]) ++ ps).map Prod.fst).Nodup := by
        simpa [List.append_assoc] using h1
      have h4n : ∀ p ∈ ps, ∀ mm, p.2 = JVal.jobj mm → dict2Hyp tbl mm :=
        fun p hp => h4 p (by simp [hp])
      rw [entryFold_eq tbl key ps (pre ++ [(nk, renameSub tbl (JVal.jobj m))]) _ hg2 h1n h4n]
      simp [objSet_objSet, List.append_assoc]
    · have hstep : entryStep tbl key (Except.ok dcopy) (nk, pv) = .ok dcopy := by
        cases pv
        case jobj m => exact absurd ⟨m, rfl⟩ hobj
        all_goals rfl
      have hrs : renameSub tbl pv = pv := by
        cases pv
        case jobj m => exact absurd ⟨m, rfl⟩ hobj
        all_goals rfl
      rw [hstep]
      have hg2 : objGet dcopy key = .ok (.jobj ((pre ++ [(nk, pv)]) ++ ps)) := by
        rw [List.append_assoc, List.singleton_append]
        exact hg
      have h1n : (((pre ++ [(nk, pv)]) ++ ps).map Prod.fst).Nodup := by
        simpa [List.append_assoc] using h1
      have h4n : ∀ p ∈ ps, ∀ mm, p.2 = JVal.jobj mm → dict2Hyp tbl mm :=
        fun p hp => h4 p (by simp [hp])
      rw [entryFold_eq tbl key ps (pre ++ [(nk, pv)]) dcopy hg2 h1n h4n]
      simp [hrs, List.append_assoc]

theorem rootFold_eq (tbl : List (JVal × Str)) :
    ∀ (f kept b : List (Str × JVal)),
      (((kept ++ f).map Prod.fst).Nodup) →
      (∀ e ∈ f, (dictGet tbl (.jstr e.1)).isSome = true →
        keySub tbl e.1 ∉ (kept ++ f ++ b).map Prod.fst) →
      f.Pairwise (fun e em => (dictGet tbl (.jstr e.1)).isSome = true →
        (dictGet tbl (.jstr em.1)).isSome = true →
        keySub tbl e.1 ≠ keySub tbl em.1) →
      (∀ e ∈ f, ∃ nv, e.2 = JVal.jobj nv ∧ ((nv.map Prod.fst).Nodup) ∧
        ∀ p ∈ nv, ∀ m, p.2 = JVal.jobj m → dict2Hyp tbl m) →
      f.foldl (rootStep tbl) (Except.ok (kept ++ f ++ b)) =
        .ok (kept ++
          (f.filter (fun e => (dictGet tbl (.jstr e.1)).isNone)).map
            (fun e => (e.1, renameValSpec tbl e.2)) ++ b ++
          (f.filter (fun e => (dictGet tbl (.jstr e.1)).isSome)).map
            (fun e => (keySub tbl e.1, renameValSpec tbl e.2)))
  | [], kept, b, _, _, _, _ => by simp
  | (key, val) :: f, kept, b, h1, h2, h3, h4 => by
    obtain ⟨nv, hval, hnvd, hnv2⟩ := h4 (key, val) (by simp)
    obtain rfl : val = JVal.jobj nv := hval
    have h1' : ((kept.map Prod.fst) ++ key :: f.map Prod.fst).Nodup := by
      simpa using h1
    have hkk : key ∉ kept.map Prod.fst := fun hmem =>
      List.disjoint_of_nodup_append h1' hmem (List.mem_cons_self key _)
    have h1n : ((kept ++ f).map Prod.fst).Nodup := by
      have hsl : ((kept ++ f).map Prod.fst).Sublist
          ((kept ++ (key, JVal.jobj nv) :: f).map Prod.fst) :=
        List.Sublist.map Prod.fst
          (List.Sublist.append_left (List.sublist_cons_self _ _) kept)
      exact h1.sublist hsl
    have h3n := (List.pairwise_cons.mp h3).2
    have h4n : ∀ e ∈ f, ∃ nv2, e.2 = JVal.jobj nv2 ∧ ((nv2.map Prod.fst).Nodup) ∧
        ∀ p ∈ nv2, ∀ m, p.2 = JVal.jobj m → dict2Hyp tbl m :=
      fun e he => h4 e (by simp [he])
    rw [List.foldl_cons]
    simp only [List.append_assoc, List.cons_append]
    have hg0 : objGet (kept ++ ((key, JVal.jobj nv) :: (f ++ b))) key =
        .ok (.jobj nv) := objGet_append_cons kept key (JVal.jobj nv) (f ++ b) hkk
    have hfold := entryFold_eq tbl key nv [] _ hg0 hnvd hnv2
    cases hdg : dictGet tbl (.jstr key) with
    | some s =>
      have hsub : keySub tbl key = s := by simp [keySub, hdg]
      have hfresh : s ∉ (kept ++ (f ++ b)).map Prod.fst := by
        have h0 := h2 (key, JVal.jobj nv) (by simp) (by simp [hdg])
        simp only [hsub] at h0
        simp only [List.map_append, List.mem_append, List.map_cons,
          List.mem_cons, not_or] at h0 ⊢
        tauto
      have h2n : ∀ e ∈ f, (dictGet tbl (.jstr e.1)).isSome = true →
          keySub tbl e.1 ∉
            (kept ++ f ++ (b ++ [(s, JVal.jobj (nv.map (fun e =>
              (e.1, renameSub tbl e.2))))])).map Prod.fst := by
        intro e he hs
        have h0 := h2 e (by simp [he]) hs
        have hne : keySub tbl e.1 ≠ s := by
          intro hEq
          have hpw := (List.pairwise_cons.mp h3).1 e he (by simp [hdg]) hs
          exact hpw (by simpa [hsub] using hEq.symm)
        simp only [List.map_append, List.mem_append, List.map_cons,
          List.mem_cons, not_or, List.map_nil, List.not_mem_nil,
          List.mem_singleton] at h0 ⊢
        tauto
      have hstep : rootStep tbl
          (Except.ok (kept ++ ((key, JVal.jobj nv) :: (f ++ b)))) (key, JVal.jobj nv) =
          .ok ((kept ++ (f ++ b)) ++
            [(s, JVal.jobj (nv.map (fun e => (e.1, renameSub tbl e.2))))]) := by
        show renameEntry tbl (kept ++ ((key, JVal.jobj nv) :: (f ++ b))) key
          (JVal.jobj nv) = _
        simp only [renameEntry, toDict]
        rw [hfold]
        simp only [List.nil_append]
        rw [objSet_append_cons kept key (JVal.jobj nv) (f ++ b) _ hkk]
        show (if (dictGet tbl (.jstr key)).isSome = true then
            match objPop (kept ++ ((key, JVal.jobj (nv.map (fun e =>
                (e.1, renameSub tbl e.2)))) :: (f ++ b))) key with
            | .error e => Except.error e
            | .ok (v, dc₂) =>
              Except.ok (objSet dc₂ ((dictGet tbl (.jstr key)).getD []) v)
          else Except.ok (kept ++ ((key, JVal.jobj (nv.map (fun e =>
            (e.1, renameSub tbl e.2)))) :: (f ++ b)))) = _
        rw [if_pos (by simp [hdg]),
          objPop_append_cons kept key _ (f ++ b) hkk]
        show Except.ok (objSet (kept ++ (f ++ b))
            ((dictGet tbl (.jstr key)).getD [])
            (JVal.jobj (nv.map (fun e => (e.1, renameSub tbl e.2))))) = _
        rw [hdg]
        show Except.ok (objSet (kept ++ (f ++ b)) s
            (JVal.jobj (nv.map (fun e => (e.1, renameSub tbl e.2))))) = _
        rw [objSet_append_of_not_mem (kept ++ (f ++ b)) s _ hfresh]
      rw [hstep]
      have hacc : (kept ++ (f ++ b)) ++
          [(s, JVal.jobj (nv.map (fun e => (e.1, renameSub tbl e.2))))] =
          kept ++ f ++ (b ++ [(s, JVal.jobj (nv.map (fun e =>
            (e.1, renameSub tbl e.2))))]) := by simp
      rw [hacc, rootFold_eq tbl f kept _ h1n h2n h3n h4n]
      simp [List.filter_cons, hdg, hsub, renameValSpec, List.append_assoc]
    | none =>
      have h2n : ∀ e ∈ f, (dictGet tbl (.jstr e.1)).isSome = true →
          keySub tbl e.1 ∉
            ((kept ++ [(key, JVal.jobj (nv.map (fun e =>
              (e.1, renameSub tbl e.2))))]) ++ f ++ b).map Prod.fst := by
        intro e he hs
        have h0 := h2 e (by simp [he]) hs
        simp only [List.map_append, List.mem_append, List.map_cons,
          List.mem_cons, not_or, List.map_nil, List.not_mem_nil,
          List.mem_singleton] at h0 ⊢
        tauto
      have h1n' : (((kept ++ [(key, JVal.jobj (nv.map (fun e =>
          (e.1, renameSub tbl e.2))))]) ++ f).map Prod.fst).Nodup := by
        simpa [List.append_assoc] using h1
      have hstep : rootStep tbl
          (Except.ok (kept ++ ((key, JVal.jobj nv) :: (f ++ b)))) (key, JVal.jobj nv) =
          .ok (kept ++ ((key, JVal.jobj (nv.map (fun e =>
            (e.1, renameSub tbl e.2)))) :: (f ++ b))) := by
        show renameEntry tbl (kept ++ ((key, JVal.jobj nv) :: (f ++ b))) key
          (JVal.jobj nv) = _
        simp only [renameEntry, toDict]
        rw [hfold]
        simp only [List.nil_append]
        rw [objSet_append_cons kept key (JVal.jobj nv) (f ++ b) _ hkk]
        show (if (dictGet tbl (.jstr key)).isSome = true then
            match objPop (kept ++ ((key, JVal.jobj (nv.map (fun e =>
                (e.1, renameSub tbl e.2)))) :: (f ++ b))) key with
            | .error e => Except.error e
            | .ok (v, dc₂) =>
              Except.ok (objSet dc₂ ((dictGet tbl (.jstr key)).getD []) v)
          else Except.ok (kept ++ ((key, JVal.jobj (nv.map (fun e =>
            (e.1, renameSub tbl e.2)))) :: (f ++ b)))) = _
        rw [if_neg (by simp [hdg])]
      rw [hstep]
      have hacc : kept ++ ((key, JVal.jobj (nv.map (fun e =>
          (e.1, renameSub tbl e.2)))) :: (f ++ b)) =
          (kept ++ [(key, JVal.jobj (nv.map (fun e =>
            (e.1, renameSub tbl e.2))))]) ++ f ++ b := by simp
      rw [hacc, rootFold_eq tbl f (kept ++ [(key, JVal.jobj (nv.map (fun e =>
        (e.1, renameSub tbl e.2))))]) b h1n' h2n h3n h4n]
      simp [List.filter_cons, hdg, renameValSpec, List.append_assoc]

theorem renameSpec_eq (tbl : List (JVal × Str)) (d : List (Str × JVal)) :
    renameSpec tbl d =
      (d.filter (fun e => (dictGet tbl (.jstr e.1)).isNone)).map
        (fun e => (e.1, renameValSpec tbl e.2)) ++
      (d.filter (fun e => (dictGet tbl (.jstr e.1)).isSome)).map
        (fun e => (keySub tbl e.1, renameValSpec tbl e.2)) := by
  simp [renameSpec, renameObjSpec, List.filter_map, List.map_map,
    Function.comp_def]

/-- Claim C7 (corrected): with anonymization enabled and `randomkeys=True`,
the key-renaming stage of `export` renames keys at the root and at TWO
levels of nesting (the keys of dicts sitting inside the values of the root
values), not at one level of nesting: assuming every root value is a dict,
keys are distinct at each affected level, and the recorded substitutes are
fresh and pairwise distinct, the stage maps `d` to `renameSpec tbl d`, which
renames exactly the root keys and the depth-two keys present in the table
and leaves depth-one keys (and everything deeper) unrenamed. -/
theorem claim_C7_theorem (tbl : List (JVal × Str)) (d : List (Str × JVal))
    (h1 : ((d.map Prod.fst).Nodup))
    (h2 : ∀ e ∈ d, (dictGet tbl (.jstr e.1)).isSome = true →
      keySub tbl e.1 ∉ d.map Prod.fst)
    (h3 : d.Pairwise (fun e em => (dictGet tbl (.jstr e.1)).isSome = true →
      (dictGet tbl (.jstr em.1)).isSome = true →
      keySub tbl e.1 ≠ keySub tbl em.1))
    (h4 : ∀ e ∈ d, ∃ nv, e.2 = JVal.jobj nv ∧ ((nv.map Prod.fst).Nodup) ∧
      ∀ p ∈ nv, ∀ m, p.2 = JVal.jobj m → dict2Hyp tbl m) :
    renameStage tbl (.jobj d) = .ok (.jobj (renameSpec tbl d)) := by
  have hrec := rootFold_eq tbl d [] [] h1
    (by
      intro e he hs
      rw [List.nil_append, List.append_nil]
      exact h2 e he hs) h3 h4
  simp only [List.nil_append, List.append_nil] at hrec
  rw [renameStage, hrec, renameSpec_eq]

/-- Claim C7, counterexample to the claim as stated: with the substitution
table `{"K": "R"}`, exporting `{"aa": {"K": {"K": 1}}}` with `randomkeys=True`
leaves the key `"K"` one level below the root unrenamed and instead renames
the key `"K"` of the dict two levels below the root, so renaming does not
apply to "keys at the root or one level of nesting". -/
theorem claim_C7_counterexample :
    exportFn (lc "f")
      (.jobj [(lc "aa", .jobj [(lc "K", .jobj [(lc "K", .jint 1)])])])
      false true ⟨true, [(.jstr (lc "K"), lc "R")], fun _ => 0, 0⟩ =
      .ok (some (jsonDump
          (.jobj [(lc "aa", .jobj [(lc "K", .jobj [(lc "R", .jint 1)])])])),
        ⟨true, [(.jstr (lc "K"), lc "R")], fun _ => 0, 0⟩) := rfl

/-- Claim C7, witness: the corrected statement applied to the document
`{"aa": {"K": {"K": 1}}}` with table `{"K": "R"}`. -/
theorem claim_C7_witness :
    renameStage [(JVal.jstr (lc "K"), lc "R")]
      (.jobj [(lc "aa", .jobj [(lc "K", .jobj [(lc "K", .jint 1)])])]) =
      .ok (.jobj (renameSpec [(JVal.jstr (lc "K"), lc "R")]
        [(lc "aa", .jobj [(lc "K", .jobj [(lc "K", .jint 1)])])])) :=
  claim_C7_theorem _ _ (by decide) (by decide) (by decide)
    (by
      intro e he
      simp only [List.mem_singleton] at he
      subst he
      refine ⟨_, rfl, by decide, ?_⟩
      intro p hp m hm
      simp only [List.mem_singleton] at hp
      subst hp
      injection hm with hm2
      subst hm2
      decide)
